import Mathlib

/-!
# boost::sml (lite) -- a verification development

A shallow embedding of `include/boost/sml.lite.hpp`.

* `char` values are natural numbers (their character codes); state names are
  ASCII, so the integral promotion of a `char` is its code.
* `unsigned` is a natural number below `2 ^ 32`; every shift is reduced
  modulo `2 ^ 32`.
* An event type (`TEvent`) is a natural-number tag, an event value is an
  element of an arbitrary type `Ev`.
* `mp::counter` is a counter of the translation unit: the functions of the
  machine take the list `earlier` of the event types counted before the table.
* In `dispatch<TEvent>(event, current_state, &mappings)` the index `N` is
  deduced together with `T` (`dispatch_entry`); in the recursive call
  `dispatch<TEvent, N + 1u>(...)` it is given (`dispatch`).
* Guards and actions are user code: they read and write a world `W`, which is
  passed explicitly.
-/

namespace sml

/-! ## mp::fixed_string -/

/-- Modulus of the C++ type `unsigned`. -/
def UNSIGNED_MOD : Nat := 2 ^ 32

/-- Character code of the initial marker `'*'`. -/
def STAR : Nat := 42

/-- Model of `mp::fixed_string<N>`: `size` is `N`, `data` is `char data[N + 1]`
and `hash` is `unsigned hash`. -/
structure fixed_string where
  size : Nat
  data : List Nat
  hash : Nat
deriving DecidableEq, Repr

namespace fixed_string

/-- Model of `constexpr fixed_string() = default`: both members are
value-initialised (`data[N + 1]{}` and `hash{}`). -/
def dflt (N : Nat) : fixed_string :=
  { size := N, data := List.replicate (N + 1) 0, hash := 0 }

/-- One step of `(hash ^= c) <<= 1` on an `unsigned`. -/
def hash_step (hash c : Nat) : Nat :=
  ((hash ^^^ c) <<< 1) % UNSIGNED_MOD

/-- Body of the loop of the converting constructor, at index `i`:
`data[i] = str[i]; (hash ^= data[i]) <<= 1;`. -/
def ctor_body (str : List Nat) (self : fixed_string) (i : Nat) : fixed_string :=
  let data := self.data.set i (str.getD i 0)
  { self with data := data, hash := hash_step self.hash (data.getD i 0) }

/-- Model of `fixed_string(const char (&str)[N + 1])`:
`for (auto i = 0u; i < N; ++i) { ... }` over a value-initialised object. -/
def ctor (N : Nat) (str : List Nat) : fixed_string :=
  (List.range N).foldl (ctor_body str) (dflt N)

/-- A string literal with the characters `name`: the array `name ++ [0]` of
`name.length + 1` chars, converted by the deduction guide
`fixed_string(const char (&)[N]) -> fixed_string<N - 1>`. -/
def of_name (name : List Nat) : fixed_string :=
  ctor name.length (name ++ [0])

/-- Body of the loop of `operator*`, at index `i`:
`str.data[i + 1] = data[i]; (str.hash ^= str.data[i + 1]) <<= 1;`. -/
def star_body (self : fixed_string) (str : fixed_string) (i : Nat) : fixed_string :=
  let data := str.data.set (i + 1) (self.data.getD i 0)
  { str with data := data, hash := hash_step str.hash (data.getD (i + 1) 0) }

/-- Model of `fixed_string::operator*`: a value-initialised
`fixed_string<N + 1>` whose `data[0]` is `'*'`, filled by the loop. -/
def star (self : fixed_string) : fixed_string :=
  let str := dflt (self.size + 1)
  let str := { str with data := str.data.set 0 STAR }
  (List.range self.size).foldl (star_body self) str

end fixed_string

/-! ## front::invoke, front::transition -/

/-- A callable object in the sense of `concepts::invokable`, classified by the
call expressions it accepts: `fn(event)` only, `fn()` only, or both. Calling it
may read and write the world `W`. -/
inductive invokable (Ev W R : Type) where
  | unary (f : Ev → W → R × W)
  | nullary (g : W → R × W)
  | overloaded (f : Ev → W → R × W) (g : W → R × W)

/-- Model of `front::invoke`: `if constexpr (requires { fn(event); }) return
fn(event); else return fn();`. -/
def invoke {Ev W R : Type} (fn : invokable Ev W R) (event : Ev) (w : W) : R × W :=
  match fn with
  | .unary f => f event w
  | .nullary g => g w
  | .overloaded f _ => f event w

namespace detail

/-- Model of `detail::none`, the lambda `[] {}`. -/
def none {Ev W : Type} : invokable Ev W Unit := .nullary (fun w => ((), w))

/-- Model of `detail::always`, the lambda `[] { return true; }`. -/
def always {Ev W : Type} : invokable Ev W Bool := .nullary (fun w => (true, w))

/-- Tag of the event type `decltype(detail::none)`, the default `TEvent`. -/
def NONE_EVENT : Nat := 0

end detail

/-- Model of `front::transition<Src, TEvent, TGuard, TAction, Dst>` with its
members `guard` and `action`. -/
structure transition (Ev W : Type) where
  src : fixed_string
  event : Nat
  guard : invokable Ev W Bool
  action : invokable Ev W Unit
  dst : fixed_string

namespace transition

variable {Ev W : Type}

/-- Model of `operator""_s`: `transition<Str>{}`. -/
def state (name : List Nat) : transition Ev W :=
  { src := fixed_string.of_name name, event := detail.NONE_EVENT, guard := detail.always,
    action := detail.none, dst := fixed_string.of_name [] }

/-- Model of `front::event<TEvent>`: `transition<"", TEvent>{}`. -/
def on_event (TEvent : Nat) : transition Ev W :=
  { src := fixed_string.of_name [], event := TEvent, guard := detail.always,
    action := detail.none, dst := fixed_string.of_name [] }

/-- Model of `transition::operator*`: `transition<*Src, TEvent, TGuard, TAction, Dst>`. -/
def star (self : transition Ev W) : transition Ev W :=
  { self with src := self.src.star }

/-- Model of `transition::operator+`: `transition<Src, typename T::event,
decltype(T::guard), decltype(T::action)>`. -/
def plus (self t : transition Ev W) : transition Ev W :=
  { src := self.src, event := t.event, guard := t.guard, action := t.action,
    dst := fixed_string.of_name [] }

/-- Model of `transition::operator[]`: `transition<Src, TEvent, T>`. -/
def subscript (self : transition Ev W) (guard : invokable Ev W Bool) : transition Ev W :=
  { src := self.src, event := self.event, guard := guard, action := detail.none,
    dst := fixed_string.of_name [] }

/-- Model of `transition::operator/`: `transition<Src, TEvent, TGuard, T>`. -/
def slash (self : transition Ev W) (action : invokable Ev W Unit) : transition Ev W :=
  { src := self.src, event := self.event, guard := self.guard, action := action,
    dst := fixed_string.of_name [] }

/-- Model of `transition::operator=`: `transition<src, TEvent, TGuard, TAction, T::src>`. -/
def assign (self t : transition Ev W) : transition Ev W :=
  { self with dst := t.src }

/-- Model of `transition::operator()(event, current_state)`: the result is the
returned `bool`, the value of the referenced `current_state` and the world. -/
def call (self : transition Ev W) (event : Ev) (current_state : Nat) (w : W) :
    Bool × Nat × W :=
  let g := invoke self.guard event w
  if g.1 then
    let a := invoke self.action event g.2
    if self.dst.size ≠ 0 then (true, self.dst.hash, a.2) else (true, current_state, a.2)
  else (false, current_state, g.2)

end transition

/-! ## mp::counter -/

/-- One step of the search of `counter_impl<T, Tag, NextVal>` over the set
`flags` of pairs `(T, N)` for which `counted_flag(reader<T, N>)` is defined:
if the flag of `NextVal` is defined the search goes on with `NextVal + 1`,
else `setter<T, NextVal>::value` is returned. `depth` bounds the recursive
instantiations. -/
def counter_impl (flags : List (Nat × Nat)) (T : Nat) : Nat → Nat → Nat
  | 0, NextVal => NextVal
  | depth + 1, NextVal =>
    if (T, NextVal) ∈ flags then counter_impl flags T depth (NextVal + 1) else NextVal

/-- Model of one use of `mp::counter<T>` (with a fresh `Tag`): the value `N`
and the flags after `setter<T, N>` was instantiated. -/
def counter (flags : List (Nat × Nat)) (T : Nat) : Nat × List (Nat × Nat) :=
  let N := counter_impl flags T (flags.length + 1) 0
  (N, (T, N) :: flags)

/-! ## back::sm -/

/-- Model of a base class `back::transition<N, TEvent, T>` of `mappings_t`. -/
structure mapping (Ev W : Type) where
  N : Nat
  event : Nat
  T : transition Ev W

section back

variable {Ev W : Type}

/-- The pack expansion of `mappings_t`, left to right, from a given state of
the counter flags. -/
def mappings_from : List (Nat × Nat) → List (transition Ev W) → List (mapping Ev W)
  | _, [] => []
  | flags, t :: ts =>
    let c := counter flags t.event
    { N := c.1, event := t.event, T := t } :: mappings_from c.2 ts

/-- The flags of `mp::counter` after the uses `mp::counter<T>` for the event
types `earlier`, in this order, from the start of the translation unit (where
no flag is defined). -/
def flags_after (earlier : List Nat) : List (Nat × Nat) :=
  earlier.foldl (fun flags T => (counter flags T).2) []

/-- Model of `mappings_t` for a table instantiated after the uses of
`mp::counter` for the event types `earlier` in its translation unit (`[]` for
the first table of the translation unit). -/
def mappings_t (earlier : List Nat) (ts : List (transition Ev W)) : List (mapping Ev W) :=
  mappings_from (flags_after earlier) ts

/-- The base classes `back::transition<N, TEvent, T>` of `mappings_t` for one
event type, in the order of the pack expansion. -/
def group_of (mappings : List (mapping Ev W)) (TEvent : Nat) : List (mapping Ev W) :=
  mappings.filter (fun m => decide (m.event = TEvent))

/-- Deduction of `N` and `T` in the parameter `const transition<N, TEvent, T>*`
from `&mappings` when only `TEvent` is given, as in the call
`dispatch<TEvent>(event, current_state, &mappings)`: `N` is in a deduced
context, so its default `0u` is not used, and deduction succeeds when exactly
one base class has the event type. -/
def base_of_event (mappings : List (mapping Ev W)) (TEvent : Nat) :
    Option (Nat × transition Ev W) :=
  match group_of mappings TEvent with
  | [m] => some (m.N, m.T)
  | _ => none

/-- Deduction of `T` in the parameter `const transition<N, TEvent, T>*` from
`&mappings` when `TEvent` and `N` are given, as in the call
`dispatch<TEvent, N + 1u>(event, current_state, &mappings)`: it succeeds when
exactly one base class has this form. -/
def base_of (mappings : List (mapping Ev W)) (TEvent N : Nat) : Option (transition Ev W) :=
  match mappings.filter (fun m => decide (m.N = N ∧ m.event = TEvent)) with
  | [m] => some m.T
  | _ => none

/-- Model of `Transitions::src.data[0] == '*'`. -/
def is_initial (t : transition Ev W) : Bool :=
  decide (t.src.data.getD 0 0 = STAR)

/-- Model of `num_of_regions`, the fold `((Transitions::src.data[0] == '*') + ...)`. -/
def num_of_regions (ts : List (transition Ev W)) : Nat :=
  (ts.map (fun t => if is_initial t then 1 else 0)).sum

/-- Text of the `static_assert` of `num_of_regions > 0`. -/
def REGION_ERROR : String := "At least one region is required!"

/-- Model of `back::sm<TList<Transitions...>>`: the members `transition_table_`
and `current_state_`. -/
structure sm (Ev W : Type) where
  transition_table_ : List (transition Ev W)
  current_state_ : List Nat

namespace sm

/-- The array `states` of the constructor:
`(Transitions::src.data[0] == '*' ? Transitions::src.hash : 0u)...`. -/
def states (ts : List (transition Ev W)) : List Nat :=
  ts.map (fun t => if is_initial t then t.src.hash else 0)

/-- Body of the loop of the constructor, on the array and the position of the
pointer `current_state`: `if (state) { *current_state++ = state; }`. -/
def seed_body (acc : List Nat × Nat) (state : Nat) : List Nat × Nat :=
  if state ≠ 0 then (acc.1.set acc.2 state, acc.2 + 1) else acc

/-- Model of the constructor of `back::sm`, on the value-initialised array
`current_state_[num_of_regions]{}`. -/
def ctor (ts : List (transition Ev W)) : sm Ev W :=
  { transition_table_ := ts,
    current_state_ :=
      ((states ts).foldl seed_body (List.replicate (num_of_regions ts) 0, 0)).1 }

/-- Construction of a machine: the `static_assert` rejects the table when
`num_of_regions` is zero. -/
def construct (ts : List (transition Ev W)) : Except String (sm Ev W) :=
  if 0 < num_of_regions ts then Except.ok (ctor ts) else Except.error REGION_ERROR

/-- Model of the two overloads of `dispatch<TEvent, N>` called with both
template arguments given, on the value of the referenced `current_state` and
the world; `T` of a base class of `mappings` stands for
`static_cast<T&>(transition_table_)`. `depth` bounds the recursive
instantiations. -/
def dispatch (mappings : List (mapping Ev W)) (TEvent : Nat) (event : Ev) :
    Nat → Nat → Nat → W → Nat × W
  | 0, _, current_state, w => (current_state, w)
  | depth + 1, N, current_state, w =>
    match base_of mappings TEvent N with
    | none => (current_state, w)
    | some T =>
      if T.src.hash ≠ current_state then
        dispatch mappings TEvent event depth (N + 1) current_state w
      else
        let r := T.call event current_state w
        if !r.1 then dispatch mappings TEvent event depth (N + 1) r.2.1 r.2.2
        else (r.2.1, r.2.2)

/-- Model of `mp::make_index_sequence<N>`: `index_sequence<0, ..., N - 1>`, the
result of `__make_integer_seq` and of the `concat` recursion alike. -/
def make_index_sequence (N : Nat) : List Nat := List.range N

/-- Model of the two overloads of `dispatch` in the call
`dispatch<TEvent>(event, current_state, &mappings)` of `process_event`, where
`N` and `T` are deduced: the first overload, on the deduced base class, when
deduction succeeds, else the variadic overload, which does nothing. -/
def dispatch_entry (mappings : List (mapping Ev W)) (TEvent : Nat) (event : Ev)
    (depth : Nat) (current_state : Nat) (w : W) : Nat × W :=
  match base_of_event mappings TEvent with
  | none => (current_state, w)
  | some b =>
    if b.2.src.hash ≠ current_state then
      dispatch mappings TEvent event depth (b.1 + 1) current_state w
    else
      let r := b.2.call event current_state w
      if !r.1 then dispatch mappings TEvent event depth (b.1 + 1) r.2.1 r.2.2
      else (r.2.1, r.2.2)

/-- The call `dispatch<TEvent>(event, current_state_[R], &mappings)` on the
machine; `earlier` lists the event types counted by `mp::counter` before the
table in the translation unit. -/
def dispatch_region (earlier : List Nat) (self : sm Ev W) (TEvent : Nat) (event : Ev)
    (R : Nat) (w : W) : sm Ev W × W :=
  let mappings := mappings_t earlier self.transition_table_
  let r := dispatch_entry mappings TEvent event (mappings.length + 1)
    (self.current_state_.getD R 0) w
  ({ self with current_state_ := self.current_state_.set R r.1 }, r.2)

/-- Model of the private overload `process_event(event, index_sequence<Rs...>)`:
the fold `(dispatch<TEvent>(event, current_state_[Rs], &mappings), ...)`. -/
def process_event_seq (earlier : List Nat) (TEvent : Nat) (event : Ev) :
    List Nat → sm Ev W → W → sm Ev W × W
  | [], self, w => (self, w)
  | R :: Rs, self, w =>
    let r := dispatch_region earlier self TEvent event R w
    process_event_seq earlier TEvent event Rs r.1 r.2

/-- Model of the public `process_event<TEvent>(event)`. -/
def process_event (earlier : List Nat) (self : sm Ev W) (TEvent : Nat) (event : Ev)
    (w : W) : sm Ev W × W :=
  if num_of_regions self.transition_table_ = 1 then
    dispatch_region earlier self TEvent event 0 w
  else
    process_event_seq earlier TEvent event
      (make_index_sequence (num_of_regions self.transition_table_)) self w

end sm

end back

/-! ## front: guard and action combinators -/

section front

variable {Ev W : Type}

/-- Model of `front::operator,`: the lambda
`[=](const auto& event) { invoke(lhs, event); invoke(rhs, event); }`. -/
def operator_comma {A B : Type} (lhs : invokable Ev W A) (rhs : invokable Ev W B) :
    invokable Ev W Unit :=
  .unary (fun event w =>
    let l := invoke lhs event w
    let r := invoke rhs event l.2
    ((), r.2))

/-- Model of `front::operator and`: the lambda
`[=](const auto& event) { return invoke(lhs, event) and invoke(rhs, event); }`. -/
def operator_and (lhs rhs : invokable Ev W Bool) : invokable Ev W Bool :=
  .unary (fun event w =>
    let l := invoke lhs event w
    if l.1 then invoke rhs event l.2 else (false, l.2))

/-- Model of `front::operator or`: the lambda
`[=](const auto& event) { return invoke(lhs, event) or invoke(rhs, event); }`. -/
def operator_or (lhs rhs : invokable Ev W Bool) : invokable Ev W Bool :=
  .unary (fun event w =>
    let l := invoke lhs event w
    if l.1 then (true, l.2) else invoke rhs event l.2)

/-- Model of `front::operator not`: the lambda
`[=](const auto& event) { return not invoke(t, event); }`. -/
def operator_not (t : invokable Ev W Bool) : invokable Ev W Bool :=
  .unary (fun event w =>
    let r := invoke t event w
    (!r.1, r.2))

end front

/-! ## Vocabulary of the statements -/

section vocabulary

variable {Ev W : Type}

/-- The transitions of a table whose event type is `TEvent`, in declaration
order. -/
def transitions_of (ts : List (transition Ev W)) (TEvent : Nat) : List (transition Ev W) :=
  ts.filter (fun t => decide (t.event = TEvent))

/-- The flags of `mp::counter` describe counts: the flag `(T, n)` is defined
exactly for `n < cnt T`. -/
def flags_inv (flags : List (Nat × Nat)) (cnt : Nat → Nat) : Prop :=
  (∀ T n, (T, n) ∈ flags ↔ n < cnt T) ∧ ∀ T, cnt T ≤ flags.length

/-- Spec 4.3, step 2: the scan of a list of transitions in declaration order
for a region whose current state is `s`. -/
def spec_scan (event : Ev) (s : Nat) : List (transition Ev W) → W → Nat × W
  | [], w => (s, w)
  | t :: rest, w =>
    if t.src.hash ≠ s then spec_scan event s rest w
    else
      let g := invoke t.guard event w
      if g.1 then
        (if t.dst.size ≠ 0 then t.dst.hash else s, (invoke t.action event g.2).2)
      else spec_scan event s rest g.2

/-- The world in which region `r` is dispatched by `process_event`: the world
left by the dispatch of the regions `0, ..., r - 1`. -/
def sm.world_at (earlier : List Nat) (self : sm Ev W) (TEvent : Nat) (event : Ev) (w : W)
    (r : Nat) : W :=
  (sm.process_event_seq earlier TEvent event (List.range r) self w).2

/-- What the entry of `dispatch` does with the transitions `grp` of the event
type, for a region whose current state is `s`: with exactly one transition,
the scan of it; with none or with two or more, nothing. -/
def entry_scan (event : Ev) (s : Nat) (grp : List (transition Ev W)) (w : W) : Nat × W :=
  match grp with
  | [t] => spec_scan event s [t] w
  | _ => (s, w)

/-- The effect on the world of a transition `t` in a region whose current state
is `s`: nothing when the source of `t` is not `s`, else the guard of `t` and,
when it returns true, the action of `t`. -/
def fire_effect (t : transition Ev W) (event : Ev) (w : W) (s : Nat) : W :=
  if t.src.hash = s then
    if (invoke t.guard event w).1 then
      (invoke t.action event (invoke t.guard event w).2).2
    else (invoke t.guard event w).2
  else w

/-- The scan of the transitions `pre`, for a region whose current state is `s`,
fires nothing: the transitions whose source is not `s` are skipped and the
guard of every transition whose source is `s` is evaluated and returns false.
The result is the world left by these guards, or `none` when a guard returns
true. -/
def scan_rejects (event : Ev) (s : Nat) : List (transition Ev W) → W → Option W
  | [], w => some w
  | t :: rest, w =>
    if t.src.hash = s then
      if (invoke t.guard event w).1 then none
      else scan_rejects event s rest (invoke t.guard event w).2
    else scan_rejects event s rest w

/-- Region after region, in the order of the regions, the scan of the
transitions of the event type in declaration order finds no transition whose
source is the current state of the region and whose guard returns true, each
guard being evaluated at the world left by the guards before it. The result
is the world left by these guards, or `none` when a guard returns true. -/
def regions_reject (TEvent : Nat) (event : Ev) (ts : List (transition Ev W)) :
    List Nat → W → Option W
  | [], w => some w
  | s :: rest, w =>
    match scan_rejects event s (transitions_of ts TEvent) w with
    | none => none
    | some w1 => regions_reject TEvent event ts rest w1

/-- No transition of the event type is eligible in a region whose current
state is `s`: the guard of every transition of type `TEvent` whose source is `s`
returns false. -/
def no_eligible (ts : List (transition Ev W)) (TEvent : Nat) (event : Ev) (s : Nat) : Prop :=
  ∀ t ∈ transitions_of ts TEvent, t.src.hash = s → ∀ w, (invoke t.guard event w).1 = false

/-- The transition with its action replaced. -/
def transition.with_action (f : transition Ev W → invokable Ev W Unit)
    (t : transition Ev W) : transition Ev W :=
  { t with action := f t }

/-- The machine with the action of every transition replaced. -/
def sm.with_actions (f : transition Ev W → invokable Ev W Unit) (self : sm Ev W) : sm Ev W :=
  { self with transition_table_ := self.transition_table_.map (transition.with_action f) }

/-- The result of `n` successive calls `process_event<TEvent>(event)`. -/
def sm.process_n (earlier : List Nat) (TEvent : Nat) (event : Ev) :
    Nat → sm Ev W × W → sm Ev W × W
  | 0, p => p
  | n + 1, p =>
    sm.process_n earlier TEvent event n (p.1.process_event earlier TEvent event p.2)

/-- The result of a sequence of calls of `process_event`, one for each pair of
an event type and an event value. -/
def sm.run (earlier : List Nat) : List (Nat × Ev) → sm Ev W × W → sm Ev W × W
  | [], p => p
  | ev :: rest, p => sm.run earlier rest (p.1.process_event earlier ev.1 ev.2 p.2)

/-- A callable observed: each call appends the label `k` to a log carried next
to the world. -/
def traced {R : Type} (k : Nat) (fn : invokable Ev W R) : invokable Ev (W × List Nat) R :=
  .unary (fun event p =>
    let r := invoke fn event p.1
    (r.1, (r.2, p.2 ++ [k])))

/-- The call expression `fn(event)` of a callable, when it is well-formed. -/
def invokable.with_event {R : Type} : invokable Ev W R → Option (Ev → W → R × W)
  | .unary f => some f
  | .nullary _ => none
  | .overloaded f _ => some f

/-- The call expression `fn()` of a callable, when it is well-formed. -/
def invokable.no_arg {R : Type} : invokable Ev W R → Option (W → R × W)
  | .unary _ => none
  | .nullary g => some g
  | .overloaded _ g => some g

/-- The XOR, over the positions `i` of a name of `N` characters, of the
character `c_i` shifted left by `N - i`. -/
def xor_of_shifts (name : List Nat) : Nat :=
  (List.range name.length).foldl
    (fun acc i => acc ^^^ (name.getD i 0 <<< (name.length - i))) 0

/-- The same XOR by recursion on the name: the first character is shifted by
the length of the name. -/
def xor_of_shifts_from : List Nat → Nat
  | [] => 0
  | c :: rest => (c <<< (rest.length + 1)) ^^^ xor_of_shifts_from rest

/-- Spec 4.3 read on the whole table: the scan of the table in declaration
order for a region whose current state is `s`, in which the transitions of
another event type are skipped. -/
def spec_scan_table (TEvent : Nat) (event : Ev) (s : Nat) :
    List (transition Ev W) → W → Nat × W
  | [], w => (s, w)
  | t :: rest, w =>
    if t.event ≠ TEvent then spec_scan_table TEvent event s rest w
    else if t.src.hash ≠ s then spec_scan_table TEvent event s rest w
    else
      let g := invoke t.guard event w
      if g.1 then
        (if t.dst.size ≠ 0 then t.dst.hash else s, (invoke t.action event g.2).2)
      else spec_scan_table TEvent event s rest g.2

/-- The transition at position `i` of a table, observed: its guard logs `2 * i`
and its action logs `2 * i + 1`. -/
def transition.traced (i : Nat) (t : transition Ev W) : transition Ev (W × List Nat) :=
  { src := t.src, event := t.event, guard := sml.traced (2 * i) t.guard,
    action := sml.traced (2 * i + 1) t.action, dst := t.dst }

/-- The transitions of a table observed, the first one at position `i`. -/
def traced_from : Nat → List (transition Ev W) → List (transition Ev (W × List Nat))
  | _, [] => []
  | i, t :: ts => t.traced i :: traced_from (i + 1) ts

/-- The table observed: every guard and action logs its call. -/
def traced_table (ts : List (transition Ev W)) : List (transition Ev (W × List Nat)) :=
  traced_from 0 ts

/-- The sources of the initial-marked transitions of a table, in table order. -/
def initial_sources (ts : List (transition Ev W)) : List fixed_string :=
  (ts.filter is_initial).map (fun t => t.src)

end vocabulary

/-! ## Tables used as concrete inputs -/

namespace tables

/-- The name `s1`. -/
def S1 : List Nat := [115, 49]

/-- The name `s2`. -/
def S2 : List Nat := [115, 50]

/-- The name `s3`. -/
def S3 : List Nat := [115, 51]

/-- The two-character name made of a zero digit and a backquote; its hash is 0. -/
def ZERO_NAME : List Nat := [48, 96]

/-- An action that appends `k` to the world, a list of numbers. -/
def record (k : Nat) : invokable Unit (List Nat) Unit :=
  .nullary (fun w => ((), w ++ [k]))

/-- A guard that returns false. -/
def never : invokable Unit (List Nat) Bool :=
  .nullary (fun w => (false, w))

/-- The transition `*"s1"_s + event<1> / record 1 = "s2"_s`. -/
def t_s1_s2 : transition Unit (List Nat) :=
  ((((transition.state S1).star.plus (transition.on_event 1)).slash (record 1)).assign
    (transition.state S2))

/-- The table of the single transition `t_s1_s2`. -/
def single : List (transition Unit (List Nat)) := [t_s1_s2]

/-- The table `*"0x"_s + event<1>, *"s1"_s + event<1>`, where `0x` stands for
`ZERO_NAME`. -/
def zero_hash : List (transition Unit (List Nat)) :=
  [(transition.state ZERO_NAME).star.plus (transition.on_event 1),
   (transition.state S1).star.plus (transition.on_event 1)]

/-- The table `*"s1"_s + event<1> = "s2"_s, *"s1"_s + event<2> = "s3"_s`. -/
def shared_source : List (transition Unit (List Nat)) :=
  [((transition.state S1).star.plus (transition.on_event 1)).assign (transition.state S2),
   ((transition.state S1).star.plus (transition.on_event 2)).assign (transition.state S3)]

/-- The table `*"s1"_s + event<1> = "s2"_s, *"s3"_s + event<2> = "s2"_s`. -/
def two_regions : List (transition Unit (List Nat)) :=
  [(((transition.state S1).star.plus (transition.on_event 1)).slash (record 1)).assign
     (transition.state S2),
   (((transition.state S3).star.plus (transition.on_event 2)).slash (record 2)).assign
     (transition.state S2)]

/-- The transition `*"s1"_s + event<1> [never] / record 0 = "s3"_s`. -/
def p0 : transition Unit (List Nat) :=
  (((((transition.state S1).star.plus (transition.on_event 1)).subscript never).slash
    (record 0)).assign (transition.state S3))

/-- The transition `"s1"_s + event<1> / record 1 = "s2"_s`. -/
def p1 : transition Unit (List Nat) :=
  ((((transition.state S1).plus (transition.on_event 1)).slash (record 1)).assign
    (transition.state S2))

/-- The transition `"s1"_s + event<1> / record 2 = "s3"_s`. -/
def p2 : transition Unit (List Nat) :=
  ((((transition.state S1).plus (transition.on_event 1)).slash (record 2)).assign
    (transition.state S3))

/-- The transition `"s1"_s + event<2> / record 3`, without destination. -/
def p3 : transition Unit (List Nat) :=
  (((transition.state S1).plus (transition.on_event 2)).slash (record 3))

/-- The table `p0, p3, p1, p2`: three transitions from `s1` on the event type 1,
the first with a false guard, and an internal transition on the event type 2. -/
def priority : List (transition Unit (List Nat)) := [p0, p3, p1, p2]

end tables

/-! ## Theorems -/

namespace fixed_string

theorem set_at_length (a : List Nat) (m v : Nat) :
    (a ++ List.replicate (m + 1) 0).set a.length v = a ++ v :: List.replicate m 0 := by
  induction a with
  | nil => simp [List.replicate_succ]
  | cons x xs ih => simpa using ih

theorem getD_at_length (a b : List Nat) (v d : Nat) :
    (a ++ v :: b).getD a.length d = v := by
  induction a with
  | nil => simp
  | cons x xs ih => simpa using ih

theorem take_succ_getD (l : List Nat) (k : Nat) (h : k < l.length) :
    l.take k ++ [l.getD k 0] = l.take (k + 1) := by
  rw [List.take_succ]
  simp [List.getD, List.getElem?_eq_getElem h]

/-- The hash computed over a list of characters: the loop `(hash ^= c) <<= 1`. -/
theorem ctor_loop (N : Nat) (str : List Nat) (hlen : str.length = N + 1) :
    ∀ k, k ≤ N → (List.range k).foldl (ctor_body str) (dflt N) =
      { size := N, data := str.take k ++ List.replicate (N + 1 - k) 0,
        hash := (str.take k).foldl hash_step 0 } := by
  intro k
  induction k with
  | zero => intro _; simp [dflt]
  | succ k ih =>
    intro hk
    have hk1 : k ≤ N := by omega
    rw [List.range_succ, List.foldl_append, ih hk1]
    have hN : N + 1 - k = (N - k) + 1 := by omega
    have hlt : k < str.length := by omega
    have htl : (str.take k).length = k := by simp [List.length_take]; omega
    have hset : (str.take k ++ List.replicate (N - k + 1) 0).set k (str.getD k 0)
        = str.take k ++ str.getD k 0 :: List.replicate (N - k) 0 := by
      have := set_at_length (str.take k) (N - k) (str.getD k 0)
      rwa [htl] at this
    have hget : (str.take k ++ str.getD k 0 :: List.replicate (N - k) 0).getD k 0
        = str.getD k 0 := by
      have := getD_at_length (str.take k) (List.replicate (N - k) 0) (str.getD k 0) 0
      rwa [htl] at this
    simp only [List.foldl_cons, List.foldl_nil, ctor_body, hN, hset, hget]
    have h2 : N + 1 - (k + 1) = N - k := by omega
    rw [h2, ← take_succ_getD str k hlt, List.foldl_append]
    simp

theorem of_name_eq (name : List Nat) :
    of_name name =
      { size := name.length, data := name ++ [0], hash := name.foldl hash_step 0 } := by
  have h := ctor_loop name.length (name ++ [0]) (by simp) name.length (le_refl _)
  simpa [of_name, ctor] using h

theorem star_loop (self : fixed_string) (hlen : self.data.length = self.size + 1) :
    ∀ k, k ≤ self.size → (List.range k).foldl (star_body self)
        { size := self.size + 1, data := STAR :: List.replicate (self.size + 1) 0, hash := 0 } =
      { size := self.size + 1,
        data := STAR :: (self.data.take k ++ List.replicate (self.size + 1 - k) 0),
        hash := (self.data.take k).foldl hash_step 0 } := by
  intro k
  induction k with
  | zero => intro _; simp
  | succ k ih =>
    intro hk
    have hk1 : k ≤ self.size := by omega
    rw [List.range_succ, List.foldl_append, ih hk1]
    have hN : self.size + 1 - k = (self.size - k) + 1 := by omega
    have hlt : k < self.data.length := by omega
    have htl : (self.data.take k).length = k := by simp [List.length_take]; omega
    have hset : (self.data.take k ++ List.replicate (self.size - k + 1) 0).set k
          (self.data.getD k 0)
        = self.data.take k ++ self.data.getD k 0 :: List.replicate (self.size - k) 0 := by
      have := set_at_length (self.data.take k) (self.size - k) (self.data.getD k 0)
      rwa [htl] at this
    have hget : (self.data.take k ++ self.data.getD k 0 ::
          List.replicate (self.size - k) 0).getD k 0 = self.data.getD k 0 := by
      have := getD_at_length (self.data.take k) (List.replicate (self.size - k) 0)
        (self.data.getD k 0) 0
      rwa [htl] at this
    simp only [List.foldl_cons, List.foldl_nil, star_body, hN, List.set_cons_succ, hset,
      List.getD_cons_succ, hget]
    have h2 : self.size + 1 - (k + 1) = self.size - k := by omega
    rw [h2, ← take_succ_getD self.data k hlt, List.foldl_append]
    simp

theorem star_eq (self : fixed_string) (hlen : self.data.length = self.size + 1) :
    self.star =
      { size := self.size + 1,
        data := STAR :: (self.data.take self.size ++ [0]),
        hash := (self.data.take self.size).foldl hash_step 0 } := by
  have h := star_loop self hlen self.size (le_refl _)
  simpa [star, dflt, List.replicate_succ] using h

theorem hash_step_bits (h0 c k X : Nat) :
    ((((h0 ^^^ c) <<< 1) % 2 ^ 32) <<< k ^^^ X) % 2 ^ 32 =
      ((h0 <<< (k + 1)) ^^^ ((c <<< (k + 1)) ^^^ X)) % 2 ^ 32 := by
  apply Nat.eq_of_testBit_eq
  intro j
  simp only [Nat.testBit_mod_two_pow, Nat.testBit_xor, Nat.testBit_shiftLeft]
  by_cases hj : j < 32
  · by_cases hk : k ≤ j
    · have h1 : j - k < 32 := by omega
      have h2 : 1 ≤ j - k ↔ k + 1 ≤ j := by omega
      have h3 : j - k - 1 = j - (k + 1) := by omega
      simp only [hj, hk, h1, h2, h3, decide_True, Bool.true_and]
      by_cases h4 : k + 1 ≤ j
      · simp [h4]
      · simp [h4]
    · have h2 : ¬ k + 1 ≤ j := by omega
      simp [hj, hk, h2]
  · simp [hj]

theorem shift_of_even_vanishes (h n X : Nat) (hn : 31 ≤ n) (he : h % 2 = 0) :
    ((h <<< n) ^^^ X) % 2 ^ 32 = X % 2 ^ 32 := by
  apply Nat.eq_of_testBit_eq
  intro j
  simp only [Nat.testBit_mod_two_pow, Nat.testBit_xor, Nat.testBit_shiftLeft]
  by_cases hj : j < 32
  · by_cases hk : n ≤ j
    · have h0 : j - n = 0 := by omega
      have hb : h.testBit 0 = false := by
        rw [Nat.testBit_zero]
        simp [he]
      simp [hj, hk, h0, hb]
    · simp [hj, hk]
  · simp [hj]

theorem hash_step_lt (h c : Nat) : hash_step h c < 2 ^ 32 := by
  unfold hash_step UNSIGNED_MOD
  exact Nat.mod_lt _ (by norm_num)

theorem hash_step_even (h c : Nat) : hash_step h c % 2 = 0 := by
  unfold hash_step UNSIGNED_MOD
  rw [Nat.shiftLeft_eq]
  omega

theorem foldl_hash_step_even (name : List Nat) :
    ∀ h, h % 2 = 0 → (name.foldl hash_step h) % 2 = 0 := by
  induction name with
  | nil => intro h hh; exact hh
  | cons c rest ih => intro h _; exact ih _ (hash_step_even h c)

/-- The loop of the hash from a value `h0` over a name. -/
theorem foldl_hash_step (name : List Nat) :
    ∀ h0, h0 < 2 ^ 32 →
      name.foldl hash_step h0 =
        ((h0 <<< name.length) ^^^ xor_of_shifts_from name) % 2 ^ 32 := by
  induction name with
  | nil =>
    intro h0 hlt
    simp only [List.foldl_nil, xor_of_shifts_from, List.length_nil, Nat.shiftLeft_zero,
      Nat.xor_zero]
    exact (Nat.mod_eq_of_lt hlt).symm
  | cons c rest ih =>
    intro h0 _
    rw [List.foldl_cons, ih _ (hash_step_lt h0 c)]
    simp only [hash_step, UNSIGNED_MOD, xor_of_shifts_from, List.length_cons]
    exact hash_step_bits h0 c rest.length (xor_of_shifts_from rest)

theorem xor_of_shifts_fold (name : List Nat) :
    ∀ a, (List.range name.length).foldl
        (fun acc i => acc ^^^ (name.getD i 0 <<< (name.length - i))) a =
      a ^^^ xor_of_shifts_from name := by
  induction name with
  | nil => intro a; simp [xor_of_shifts_from]
  | cons c rest ih =>
    intro a
    rw [List.length_cons, List.range_succ_eq_map, List.foldl_cons, List.foldl_map]
    simp only [List.getD_cons_zero, Nat.sub_zero, Nat.succ_eq_add_one, List.getD_cons_succ,
      Nat.add_sub_add_right]
    rw [ih, xor_of_shifts_from, Nat.xor_assoc]

theorem xor_of_shifts_eq (name : List Nat) :
    xor_of_shifts name = xor_of_shifts_from name := by
  rw [xor_of_shifts, xor_of_shifts_fold]
  simp

end fixed_string

section counter

variable {Ev W : Type}

theorem counter_impl_of_inv {flags : List (Nat × Nat)} {cnt : Nat → Nat}
    (h : flags_inv flags cnt) (T : Nat) :
    ∀ depth n, n ≤ cnt T → cnt T - n < depth → counter_impl flags T depth n = cnt T := by
  intro depth
  induction depth with
  | zero => intro n _ h2; omega
  | succ d ih =>
    intro n h1 h2
    unfold counter_impl
    by_cases hn : n < cnt T
    · rw [if_pos ((h.1 T n).2 hn)]
      exact ih (n + 1) (by omega) (by omega)
    · have hnot : ¬ (T, n) ∈ flags := fun hm => hn ((h.1 T n).1 hm)
      rw [if_neg hnot]
      omega

theorem counter_of_inv {flags : List (Nat × Nat)} {cnt : Nat → Nat}
    (h : flags_inv flags cnt) (T : Nat) :
    counter flags T = (cnt T, (T, cnt T) :: flags) := by
  have hc := counter_impl_of_inv h T (flags.length + 1) 0 (Nat.zero_le _)
    (by have := h.2 T; omega)
  simp [counter, hc]

theorem flags_inv_step {flags : List (Nat × Nat)} {cnt : Nat → Nat}
    (h : flags_inv flags cnt) (T : Nat) :
    flags_inv ((T, cnt T) :: flags) (Function.update cnt T (cnt T + 1)) := by
  constructor
  · intro T' n
    by_cases hT : T' = T
    · subst hT
      simp only [List.mem_cons, Prod.mk.injEq, true_and, Function.update_same]
      rw [h.1 T' n]
      omega
    · simp only [List.mem_cons, Prod.mk.injEq, hT, false_and, false_or, ne_eq,
        not_false_eq_true, Function.update_noteq]
      exact h.1 T' n
  · intro T'
    by_cases hT : T' = T
    · subst hT
      simp only [Function.update_same, List.length_cons]
      have := h.2 T'
      omega
    · simp only [ne_eq, hT, not_false_eq_true, Function.update_noteq, List.length_cons]
      have := h.2 T'
      omega

theorem flags_inv_nil : flags_inv [] (fun _ => 0) := by
  constructor
  · intro T n; simp
  · intro T; simp

theorem mappings_from_filter (ts : List (transition Ev W)) :
    ∀ (flags : List (Nat × Nat)) (cnt : Nat → Nat), flags_inv flags cnt → ∀ E N,
      (mappings_from flags ts).filter (fun m => decide (m.N = N ∧ m.event = E)) =
        if cnt E ≤ N then
          ((transitions_of ts E)[N - cnt E]?).toList.map
            (fun t => { N := N, event := E, T := t })
        else [] := by
  induction ts with
  | nil => intro flags cnt _ E N; simp [mappings_from, transitions_of]
  | cons t ts ih =>
    intro flags cnt h E N
    have hstep := ih _ _ (flags_inv_step h t.event) E N
    simp only [mappings_from, counter_of_inv h t.event]
    by_cases hE : t.event = E
    · subst hE
      have hupd : Function.update cnt t.event (cnt t.event + 1) t.event = cnt t.event + 1 := by
        simp
      rw [hupd] at hstep
      have hgrp : transitions_of (t :: ts) t.event = t :: transitions_of ts t.event := by
        simp [transitions_of]
      rw [hgrp]
      rcases Nat.lt_trichotomy N (cnt t.event) with hlt | heq | hgt
      · rw [List.filter_cons_of_neg (by simp; omega), hstep,
          if_neg (by omega), if_neg (by omega)]
      · subst heq
        rw [List.filter_cons_of_pos (by simp), hstep, if_neg (by omega), if_pos (le_refl _)]
        simp
      · rw [List.filter_cons_of_neg (by simp; omega), hstep,
          if_pos (by omega), if_pos (by omega)]
        have h1 : N - cnt t.event = (N - (cnt t.event + 1)) + 1 := by omega
        rw [h1, List.getElem?_cons_succ]
    · have hupd : Function.update cnt t.event (cnt t.event + 1) E = cnt E := by
        simp [Function.update_noteq (Ne.symm hE)]
      rw [hupd] at hstep
      have hgrp : transitions_of (t :: ts) E = transitions_of ts E := by
        simp [transitions_of, hE]
      rw [hgrp, List.filter_cons_of_neg (by simp [hE]), hstep]


theorem mappings_from_group (ts : List (transition Ev W)) :
    ∀ (flags : List (Nat × Nat)) (cnt : Nat → Nat), flags_inv flags cnt → ∀ E,
      (group_of (mappings_from flags ts) E).map (fun m => m.N) =
          List.range' (cnt E) (transitions_of ts E).length ∧
      (group_of (mappings_from flags ts) E).map (fun m => m.T) = transitions_of ts E := by
  induction ts with
  | nil => intro flags cnt _ E; simp [mappings_from, transitions_of, group_of]
  | cons t ts ih =>
    intro flags cnt h E
    have hstep := ih _ _ (flags_inv_step h t.event) E
    simp only [mappings_from, counter_of_inv h t.event, group_of]
    simp only [group_of] at hstep
    by_cases hE : t.event = E
    · subst hE
      have hupd : Function.update cnt t.event (cnt t.event + 1) t.event = cnt t.event + 1 := by
        simp
      rw [hupd] at hstep
      have hgrp : transitions_of (t :: ts) t.event = t :: transitions_of ts t.event := by
        simp [transitions_of]
      rw [hgrp, List.filter_cons_of_pos (by simp)]
      simp only [List.map_cons, List.length_cons, hstep.1, hstep.2, List.range'_succ, and_self]
    · have hupd : Function.update cnt t.event (cnt t.event + 1) E = cnt E := by
        simp [Function.update_noteq (Ne.symm hE)]
      rw [hupd] at hstep
      have hgrp : transitions_of (t :: ts) E = transitions_of ts E := by
        simp [transitions_of, hE]
      rw [hgrp, List.filter_cons_of_neg (by simp [hE])]
      exact hstep

theorem flags_inv_foldl (earlier : List Nat) :
    ∀ (flags : List (Nat × Nat)) (cnt : Nat → Nat), flags_inv flags cnt →
      flags_inv (earlier.foldl (fun flags T => (counter flags T).2) flags)
        (fun T => cnt T + earlier.count T) := by
  induction earlier with
  | nil =>
    intro flags cnt h
    have hc : (fun T => cnt T + List.count T ([] : List Nat)) = cnt := by
      funext T
      simp
    rw [hc]
    exact h
  | cons T0 rest ih =>
    intro flags cnt h
    rw [List.foldl_cons, counter_of_inv h T0]
    have h2 := ih _ _ (flags_inv_step h T0)
    have hc : (fun T => Function.update cnt T0 (cnt T0 + 1) T + List.count T rest) =
        (fun T => cnt T + List.count T (T0 :: rest)) := by
      funext T
      by_cases hT : T = T0
      · subst hT
        simp [List.count_cons]
        omega
      · have hT' : ¬ T0 = T := fun h => hT h.symm
        simp [List.count_cons, Function.update_noteq hT, hT']
    rw [hc] at h2
    exact h2

/-- The flags after the earlier uses of the counter describe the number of
uses for each event type. -/
theorem flags_inv_after (earlier : List Nat) :
    flags_inv (flags_after earlier) (fun T => earlier.count T) := by
  have h := flags_inv_foldl earlier [] (fun _ => 0) flags_inv_nil
  have hc : (fun T => (fun _ => 0) T + List.count T earlier) =
      (fun T => List.count T earlier) := by
    funext T
    simp
  rw [hc] at h
  exact h

/-- The base class selected by an explicit index: the transition at position
`N - k` among the transitions of the event type, where `k` counts the earlier
uses of the counter for the event type. -/
theorem base_of_mappings_t (earlier : List Nat) (ts : List (transition Ev W)) (E N : Nat) :
    base_of (mappings_t earlier ts) E N =
      if earlier.count E ≤ N then (transitions_of ts E)[N - earlier.count E]? else none := by
  have h := mappings_from_filter ts _ _ (flags_inv_after earlier) E N
  unfold base_of mappings_t
  rw [h]
  by_cases hle : List.count E earlier ≤ N
  · simp only [hle, if_true]
    cases (transitions_of ts E)[N - List.count E earlier]? <;> simp
  · simp [hle]

/-- The base class deduced at the entry of `dispatch`: the only transition of
the event type, when there is exactly one. -/
theorem base_of_event_mappings_t (earlier : List Nat) (ts : List (transition Ev W))
    (E : Nat) :
    base_of_event (mappings_t earlier ts) E =
      match transitions_of ts E with
      | [t] => some (earlier.count E, t)
      | _ => none := by
  have h := mappings_from_group ts _ _ (flags_inv_after earlier) E
  unfold base_of_event
  rw [← mappings_t] at h
  obtain ⟨hN, hT⟩ := h
  rw [← hT] at hN ⊢
  cases hg : group_of (mappings_t earlier ts) E with
  | nil => simp
  | cons m rest =>
    cases rest with
    | nil =>
      rw [hg] at hN
      simp only [List.map_cons, List.map_nil, List.length_cons, List.length_nil,
        Nat.zero_add, List.range'_one, List.cons.injEq, and_true] at hN
      simp [hN]
    | cons m2 rest2 => simp

end counter


section dispatch

variable {Ev W : Type}

theorem getD_set_ne (l : List Nat) (i j v : Nat) (h : i ≠ j) :
    (l.set i v).getD j 0 = l.getD j 0 := by
  simp [List.getD_eq_getElem?_getD, List.getElem?_set_ne h]

theorem getD_set_eq (l : List Nat) (i v : Nat) (h : i < l.length) :
    (l.set i v).getD i 0 = v := by
  simp [List.getD_eq_getElem?_getD, List.getElem?_set, h]

theorem set_getD_self (l : List Nat) (i : Nat) : l.set i (l.getD i 0) = l := by
  induction l generalizing i with
  | nil => simp
  | cons x xs ih =>
    cases i with
    | zero => simp
    | succ i => simpa using ih i

theorem mappings_from_length (ts : List (transition Ev W)) :
    ∀ flags, (mappings_from flags ts).length = ts.length := by
  induction ts with
  | nil => intro flags; rfl
  | cons t ts ih => intro flags; simp [mappings_from, ih]

theorem transitions_of_length_le (earlier : List Nat) (ts : List (transition Ev W))
    (E : Nat) :
    (transitions_of ts E).length ≤ (mappings_t earlier ts).length := by
  rw [mappings_t, mappings_from_length]
  exact List.length_filter_le _ _

/-- With enough depth, `dispatch` with an explicit index, `N` places after the
first index of the event type, is the scan of the transitions of the event
type from position `N` on. -/
theorem dispatch_eq_scan (earlier : List Nat) (ts : List (transition Ev W)) (E : Nat)
    (e : Ev) :
    ∀ depth N cs w, (transitions_of ts E).length - N < depth →
      sm.dispatch (mappings_t earlier ts) E e depth (earlier.count E + N) cs w =
        spec_scan e cs ((transitions_of ts E).drop N) w := by
  intro depth
  induction depth with
  | zero => intro N cs w h; omega
  | succ d ih =>
    intro N cs w h
    unfold sm.dispatch
    rw [base_of_mappings_t, if_pos (Nat.le_add_right _ _), Nat.add_sub_cancel_left]
    by_cases hN : N < (transitions_of ts E).length
    · rw [List.getElem?_eq_getElem hN, List.drop_eq_getElem_cons hN]
      simp only [spec_scan]
      by_cases hs : (transitions_of ts E)[N].src.hash = cs
      · simp only [hs, ne_eq, not_true_eq_false, if_false, transition.call]
        by_cases hg : (invoke (transitions_of ts E)[N].guard e w).1 = true
        · simp only [hg, if_true]
          by_cases hd : (transitions_of ts E)[N].dst.size = 0
          · simp [hd]
          · simp [hd]
        · simp only [hg, if_false, Bool.false_eq_true, Bool.not_false, if_true]
          rw [Nat.add_assoc]
          exact ih (N + 1) cs _ (by omega)
      · simp only [ne_eq, hs, not_false_eq_true, if_true]
        rw [Nat.add_assoc]
        exact ih (N + 1) cs w (by omega)
    · have hnone : (transitions_of ts E)[N]? = none :=
        List.getElem?_eq_none (by omega)
      rw [hnone, List.drop_eq_nil_of_le (by omega)]
      rfl

/-- Any depth above the number of transitions gives the same result. -/
theorem dispatch_depth_irrelevant (earlier : List Nat) (ts : List (transition Ev W))
    (E : Nat) (e : Ev) (d1 d2 : Nat) (h1 : ts.length < d1) (h2 : ts.length < d2) (cs : Nat)
    (w : W) :
    sm.dispatch (mappings_t earlier ts) E e d1 (earlier.count E + 0) cs w =
      sm.dispatch (mappings_t earlier ts) E e d2 (earlier.count E + 0) cs w := by
  have hl : (transitions_of ts E).length ≤ ts.length := List.length_filter_le _ _
  rw [dispatch_eq_scan earlier ts E e d1 0 cs w (by omega),
    dispatch_eq_scan earlier ts E e d2 0 cs w (by omega)]

/-- After the only transition of an event type, `dispatch` finds no base
class, at any depth. -/
theorem dispatch_after_single (earlier : List Nat) (ts : List (transition Ev W)) (E : Nat)
    (e : Ev) (t : transition Ev W) (hgrp : transitions_of ts E = [t]) (depth cs : Nat)
    (w : W) :
    sm.dispatch (mappings_t earlier ts) E e depth (earlier.count E + 1) cs w = (cs, w) := by
  cases depth with
  | zero => rfl
  | succ d =>
    unfold sm.dispatch
    rw [base_of_mappings_t, if_pos (Nat.le_add_right _ _), Nat.add_sub_cancel_left, hgrp]
    rfl

theorem entry_scan_single (e : Ev) (s : Nat) (grp : List (transition Ev W)) (w : W)
    (h : grp.length = 1) : entry_scan e s grp w = spec_scan e s grp w := by
  match grp, h with
  | [t], _ => rfl

theorem entry_scan_not_single (e : Ev) (s : Nat) (grp : List (transition Ev W)) (w : W)
    (h : grp.length ≠ 1) : entry_scan e s grp w = (s, w) := by
  match grp, h with
  | [], _ => rfl
  | _ :: _ :: _, _ => rfl
  | [t], h => exact absurd rfl h

/-- The entry of `dispatch`, at any depth: the scan of the only transition of
the event type, or nothing when there is none or more than one. -/
theorem dispatch_entry_eq (earlier : List Nat) (ts : List (transition Ev W)) (E : Nat)
    (e : Ev) (depth cs : Nat) (w : W) :
    sm.dispatch_entry (mappings_t earlier ts) E e depth cs w =
      entry_scan e cs (transitions_of ts E) w := by
  unfold sm.dispatch_entry
  rw [base_of_event_mappings_t]
  match hgrp : transitions_of ts E with
  | [] => rfl
  | _ :: _ :: _ => rfl
  | [t] =>
    have hafter := dispatch_after_single earlier ts E e t hgrp depth
    simp only [entry_scan, spec_scan]
    by_cases hs : t.src.hash = cs
    · simp only [hs, ne_eq, not_true_eq_false, if_false, transition.call]
      by_cases hg : (invoke t.guard e w).1 = true
      · simp only [hg, if_true]
        by_cases hd : t.dst.size = 0
        · simp [hd]
        · simp [hd]
      · simp only [hg, if_false, Bool.false_eq_true, Bool.not_false, if_true]
        exact hafter cs _
    · simp only [ne_eq, hs, not_false_eq_true, if_true]
      exact hafter cs w

/-- The dispatch for a region is the entry scan of the transitions of the
event type. -/
theorem dispatch_region_eq (earlier : List Nat) (m : sm Ev W) (E : Nat) (e : Ev) (R : Nat)
    (w : W) :
    sm.dispatch_region earlier m E e R w =
      (sm.mk m.transition_table_ (m.current_state_.set R
          (entry_scan e (m.current_state_.getD R 0)
            (transitions_of m.transition_table_ E) w).1),
        (entry_scan e (m.current_state_.getD R 0)
            (transitions_of m.transition_table_ E) w).2) := by
  simp only [sm.dispatch_region, dispatch_entry_eq]

/-- With two or more transitions of the event type, or none, the dispatch for
a region does nothing. -/
theorem dispatch_region_not_single (earlier : List Nat) (m : sm Ev W) (E : Nat) (e : Ev)
    (R : Nat) (w : W) (h : (transitions_of m.transition_table_ E).length ≠ 1) :
    sm.dispatch_region earlier m E e R w = (m, w) := by
  rw [dispatch_region_eq, entry_scan_not_single e _ _ w h]
  simp only
  rw [set_getD_self]

theorem spec_scan_append_of_rejects (e : Ev) (s : Nat) (rest : List (transition Ev W)) :
    ∀ (pre : List (transition Ev W)) (w w1 : W), scan_rejects e s pre w = some w1 →
      spec_scan e s (pre ++ rest) w = spec_scan e s rest w1 := by
  intro pre
  induction pre with
  | nil =>
    intro w w1 h
    simp only [scan_rejects, Option.some.injEq] at h
    subst h
    rfl
  | cons t pre ih =>
    intro w w1 h
    simp only [scan_rejects] at h
    simp only [List.cons_append, spec_scan]
    by_cases hs : t.src.hash = s
    · simp only [hs, if_true] at h
      by_cases hg : (invoke t.guard e w).1 = true
      · simp [hg] at h
      · simp only [hg, if_false, Bool.false_eq_true] at h
        simp only [hs, ne_eq, not_true_eq_false, if_false, hg, Bool.false_eq_true]
        exact ih _ _ h
    · simp only [hs, if_false] at h
      simp only [ne_eq, hs, not_false_eq_true, if_true]
      exact ih _ _ h

theorem spec_scan_fire (e : Ev) (s : Nat) (t : transition Ev W)
    (post : List (transition Ev W)) (w1 : W) (hs : t.src.hash = s)
    (hg : (invoke t.guard e w1).1 = true) :
    spec_scan e s (t :: post) w1 =
      (if t.dst.size ≠ 0 then t.dst.hash else s,
        (invoke t.action e (invoke t.guard e w1).2).2) := by
  simp [spec_scan, hs, hg]

theorem spec_scan_no_eligible (e : Ev) (s : Nat) :
    ∀ (l : List (transition Ev W)) (w : W),
      (∀ t ∈ l, t.src.hash = s → ∀ w, (invoke t.guard e w).1 = false) →
      (spec_scan e s l w).1 = s := by
  intro l
  induction l with
  | nil => intro w _; rfl
  | cons t l ih =>
    intro w h
    have hl : ∀ t ∈ l, t.src.hash = s → ∀ w, (invoke t.guard e w).1 = false :=
      fun t' ht' => h t' (List.mem_cons_of_mem _ ht')
    simp only [spec_scan]
    by_cases hs : t.src.hash = s
    · have hg := h t (List.mem_cons_self _ _) hs w
      simp only [hs, ne_eq, not_true_eq_false, if_false, hg, Bool.false_eq_true]
      exact ih _ hl
    · simp only [ne_eq, hs, not_false_eq_true, if_true]
      exact ih _ hl

theorem spec_scan_no_eligible_pure (e : Ev) (s : Nat) :
    ∀ (l : List (transition Ev W)) (w : W),
      (∀ t ∈ l, t.src.hash = s → ∀ w, (invoke t.guard e w).1 = false) →
      (∀ t ∈ l, ∀ w, (invoke t.guard e w).2 = w) →
      spec_scan e s l w = (s, w) := by
  intro l
  induction l with
  | nil => intro w _ _; rfl
  | cons t l ih =>
    intro w h hp
    have hl : ∀ t ∈ l, t.src.hash = s → ∀ w, (invoke t.guard e w).1 = false :=
      fun t' ht' => h t' (List.mem_cons_of_mem _ ht')
    have hpl : ∀ t ∈ l, ∀ w, (invoke t.guard e w).2 = w :=
      fun t' ht' => hp t' (List.mem_cons_of_mem _ ht')
    simp only [spec_scan]
    by_cases hs : t.src.hash = s
    · have hg := h t (List.mem_cons_self _ _) hs w
      simp only [hs, ne_eq, not_true_eq_false, if_false, hg, Bool.false_eq_true,
        hp t (List.mem_cons_self _ _) w]
      exact ih _ hl hpl
    · simp only [ne_eq, hs, not_false_eq_true, if_true]
      exact ih _ hl hpl

theorem spec_scan_actions_irrelevant (e : Ev) (s : Nat)
    (f : transition Ev W → invokable Ev W Unit) :
    ∀ (l : List (transition Ev W)) (w : W),
      (∀ t ∈ l, t.src.hash = s → ∀ w, (invoke t.guard e w).1 = false) →
      spec_scan e s (l.map (transition.with_action f)) w = spec_scan e s l w := by
  intro l
  induction l with
  | nil => intro w _; rfl
  | cons t l ih =>
    intro w h
    have hl : ∀ t ∈ l, t.src.hash = s → ∀ w, (invoke t.guard e w).1 = false :=
      fun t' ht' => h t' (List.mem_cons_of_mem _ ht')
    simp only [List.map_cons, spec_scan, transition.with_action]
    by_cases hs : t.src.hash = s
    · have hg := h t (List.mem_cons_self _ _) hs w
      simp only [hs, ne_eq, not_true_eq_false, if_false, hg, Bool.false_eq_true]
      exact ih _ hl
    · simp only [ne_eq, hs, not_false_eq_true, if_true]
      exact ih _ hl

theorem spec_scan_state_of_event_guards (e : Ev) (s : Nat) :
    ∀ (l : List (transition Ev W)) (w w' : W),
      (∀ t ∈ l, ∀ w w', (invoke t.guard e w).1 = (invoke t.guard e w').1) →
      (spec_scan e s l w).1 = (spec_scan e s l w').1 := by
  intro l
  induction l with
  | nil => intro w w' _; rfl
  | cons t l ih =>
    intro w w' h
    have hl : ∀ t ∈ l, ∀ w w', (invoke t.guard e w).1 = (invoke t.guard e w').1 :=
      fun t' ht' => h t' (List.mem_cons_of_mem _ ht')
    simp only [spec_scan]
    by_cases hs : t.src.hash = s
    · simp only [hs, ne_eq, not_true_eq_false, if_false]
      rw [h t (List.mem_cons_self _ _) w w']
      by_cases hg : (invoke t.guard e w').1 = true
      · simp only [hg, if_true]
      · simp only [hg, if_false, Bool.false_eq_true]
        exact ih _ _ hl
    · simp only [ne_eq, hs, not_false_eq_true, if_true]
      exact ih _ _ hl

theorem transitions_of_with_actions (f : transition Ev W → invokable Ev W Unit)
    (ts : List (transition Ev W)) (E : Nat) :
    transitions_of (ts.map (transition.with_action f)) E =
      (transitions_of ts E).map (transition.with_action f) := by
  induction ts with
  | nil => rfl
  | cons t ts ih =>
    have ht : (transition.with_action f t).event = t.event := rfl
    by_cases hE : t.event = E
    · simp only [transitions_of] at ih
      simp [transitions_of, ht, hE, ih]
    · simp only [transitions_of] at ih
      simp [transitions_of, ht, hE, ih]

theorem num_of_regions_with_actions (f : transition Ev W → invokable Ev W Unit)
    (ts : List (transition Ev W)) :
    num_of_regions (ts.map (transition.with_action f)) = num_of_regions ts := by
  simp only [num_of_regions, List.map_map]
  rfl

theorem getD_mem (l : List Nat) (i : Nat) (h : i < l.length) : l.getD i 0 ∈ l := by
  rw [List.getD_eq_getElem _ _ h]
  exact List.getElem_mem h

theorem spec_scan_table_eq (E : Nat) (e : Ev) (s : Nat) :
    ∀ (ts : List (transition Ev W)) (w : W),
      spec_scan_table E e s ts w = spec_scan e s (transitions_of ts E) w := by
  intro ts
  induction ts with
  | nil => intro w; rfl
  | cons t ts ih =>
    intro w
    simp only [transitions_of] at ih
    by_cases hE : t.event = E
    · have hgrp : transitions_of (t :: ts) E = t :: transitions_of ts E := by
        simp [transitions_of, hE]
      rw [hgrp]
      simp only [spec_scan_table, spec_scan, hE, ne_eq, not_true_eq_false, if_false,
        transitions_of, ih]
    · have hgrp : transitions_of (t :: ts) E = transitions_of ts E := by
        simp [transitions_of, hE]
      rw [hgrp]
      simp only [spec_scan_table, hE, ne_eq, not_false_eq_true, if_true, transitions_of, ih]

end dispatch

section regions

variable {Ev W : Type}

theorem process_event_seq_append (earlier : List Nat) (E : Nat) (e : Ev) (A B : List Nat) :
    ∀ (m : sm Ev W) (w : W),
      sm.process_event_seq earlier E e (A ++ B) m w =
        sm.process_event_seq earlier E e B (sm.process_event_seq earlier E e A m w).1
          (sm.process_event_seq earlier E e A m w).2 := by
  induction A with
  | nil => intro m w; rfl
  | cons a A ih =>
    intro m w
    simp only [List.cons_append, sm.process_event_seq]
    exact ih _ _

theorem process_event_seq_table (earlier : List Nat) (E : Nat) (e : Ev) (Rs : List Nat) :
    ∀ (m : sm Ev W) (w : W),
      (sm.process_event_seq earlier E e Rs m w).1.transition_table_ =
        m.transition_table_ := by
  induction Rs with
  | nil => intro m w; rfl
  | cons a A ih => intro m w; simp only [sm.process_event_seq, ih]; rfl

theorem process_event_seq_length (earlier : List Nat) (E : Nat) (e : Ev) (Rs : List Nat) :
    ∀ (m : sm Ev W) (w : W),
      (sm.process_event_seq earlier E e Rs m w).1.current_state_.length =
        m.current_state_.length := by
  induction Rs with
  | nil => intro m w; rfl
  | cons a A ih =>
    intro m w
    simp only [sm.process_event_seq, ih]
    simp [sm.dispatch_region]

theorem process_event_seq_getD (earlier : List Nat) (E : Nat) (e : Ev) (Rs : List Nat)
    (r : Nat) (hr : r ∉ Rs) :
    ∀ (m : sm Ev W) (w : W),
      (sm.process_event_seq earlier E e Rs m w).1.current_state_.getD r 0 =
        m.current_state_.getD r 0 := by
  induction Rs with
  | nil => intro m w; rfl
  | cons a A ih =>
    intro m w
    have ha : a ≠ r := fun h => hr (by simp [h])
    have hA : r ∉ A := fun h => hr (by simp [h])
    simp only [sm.process_event_seq, ih hA]
    simp only [sm.dispatch_region]
    exact getD_set_ne _ _ _ _ ha

theorem process_event_eq_seq (earlier : List Nat) (m : sm Ev W) (E : Nat) (e : Ev) (w : W) :
    m.process_event earlier E e w =
      sm.process_event_seq earlier E e (List.range (num_of_regions m.transition_table_))
        m w := by
  unfold sm.process_event
  by_cases h : num_of_regions m.transition_table_ = 1
  · rw [if_pos h, h]
    rfl
  · rw [if_neg h]
    rfl

theorem range_split (n r : Nat) (hr : r < n) :
    List.range n = List.range r ++ r :: List.range' (r + 1) (n - (r + 1)) := by
  obtain ⟨k, rfl⟩ : ∃ k, n = k + 1 + r := ⟨n - (r + 1), by omega⟩
  have hk : k + 1 + r - (r + 1) = k := by omega
  rw [hk, List.range_eq_range', List.range_eq_range', ← List.range'_append_1 0 r (k + 1)]
  simp [List.range'_succ]

/-- The dispatch of region `r` inside `process_event`: it starts from the
current state of region `r` before the call and from the world left by the
regions before `r`. -/
theorem process_event_region (earlier : List Nat) (m : sm Ev W) (E : Nat) (e : Ev) (w : W)
    (r : Nat)
    (hlen : m.current_state_.length = num_of_regions m.transition_table_)
    (hr : r < num_of_regions m.transition_table_) :
    (m.process_event earlier E e w).1.current_state_.getD r 0 =
        (entry_scan e (m.current_state_.getD r 0) (transitions_of m.transition_table_ E)
          (m.world_at earlier E e w r)).1 ∧
      m.world_at earlier E e w (r + 1) =
        (entry_scan e (m.current_state_.getD r 0) (transitions_of m.transition_table_ E)
          (m.world_at earlier E e w r)).2 := by
  have hnot : r ∉ List.range r := by simp
  have htab := process_event_seq_table earlier E e (List.range r) m w
  have hget := process_event_seq_getD earlier E e (List.range r) r hnot m w
  have hl := process_event_seq_length earlier E e (List.range r) m w
  constructor
  · rw [process_event_eq_seq, range_split _ r hr, process_event_seq_append]
    simp only [sm.process_event_seq]
    rw [process_event_seq_getD earlier E e _ r (by simp), dispatch_region_eq]
    simp only [htab, hget, sm.world_at]
    exact getD_set_eq _ _ _ (by omega)
  · simp only [sm.world_at]
    rw [List.range_succ, process_event_seq_append]
    simp only [sm.process_event_seq]
    rw [dispatch_region_eq]
    simp only [htab, hget]

theorem process_event_world (earlier : List Nat) (m : sm Ev W) (E : Nat) (e : Ev) (w : W) :
    (m.process_event earlier E e w).2 =
      m.world_at earlier E e w (num_of_regions m.transition_table_) := by
  rw [process_event_eq_seq]
  rfl

theorem process_event_table (earlier : List Nat) (m : sm Ev W) (E : Nat) (e : Ev) (w : W) :
    (m.process_event earlier E e w).1.transition_table_ = m.transition_table_ := by
  rw [process_event_eq_seq]
  exact process_event_seq_table earlier E e _ m w

theorem process_event_length (earlier : List Nat) (m : sm Ev W) (E : Nat) (e : Ev) (w : W) :
    (m.process_event earlier E e w).1.current_state_.length = m.current_state_.length := by
  rw [process_event_eq_seq]
  exact process_event_seq_length earlier E e _ m w

/-- With two or more transitions of the event type, or none, the dispatch of
any regions does nothing. -/
theorem process_event_seq_not_single (earlier : List Nat) (m : sm Ev W) (E : Nat) (e : Ev)
    (h : (transitions_of m.transition_table_ E).length ≠ 1) :
    ∀ (Rs : List Nat) (w : W), sm.process_event_seq earlier E e Rs m w = (m, w) := by
  intro Rs
  induction Rs with
  | nil => intro w; rfl
  | cons R Rs ih =>
    intro w
    simp only [sm.process_event_seq, dispatch_region_not_single earlier m E e R w h]
    exact ih w

theorem spec_scan_state (e : Ev) (s : Nat) :
    ∀ (l : List (transition Ev W)) (w : W),
      (spec_scan e s l w).1 = s ∨
        ∃ t ∈ l, t.dst.size ≠ 0 ∧ t.dst.hash = (spec_scan e s l w).1 := by
  intro l
  induction l with
  | nil => intro w; exact Or.inl rfl
  | cons t l ih =>
    intro w
    have hrest : ∀ w', (spec_scan e s l w').1 = s ∨
        ∃ t' ∈ t :: l, t'.dst.size ≠ 0 ∧ t'.dst.hash = (spec_scan e s l w').1 := by
      intro w'
      rcases ih w' with h | ⟨t', ht', hd, hh⟩
      · exact Or.inl h
      · exact Or.inr ⟨t', List.mem_cons_of_mem _ ht', hd, hh⟩
    simp only [spec_scan]
    by_cases hs : t.src.hash = s
    · simp only [hs, ne_eq, not_true_eq_false, if_false]
      by_cases hg : (invoke t.guard e w).1 = true
      · simp only [hg, if_true]
        by_cases hd : t.dst.size = 0
        · simp [hd]
        · right
          exact ⟨t, List.mem_cons_self _ _, hd, by simp [hd]⟩
      · simp only [hg, if_false, Bool.false_eq_true]
        exact hrest _
    · simp only [ne_eq, hs, not_false_eq_true, if_true]
      exact hrest _

theorem entry_scan_state (e : Ev) (s : Nat) (grp : List (transition Ev W)) (w : W) :
    (entry_scan e s grp w).1 = s ∨
      ∃ t ∈ grp, t.dst.size ≠ 0 ∧ t.dst.hash = (entry_scan e s grp w).1 := by
  by_cases h : grp.length = 1
  · rw [entry_scan_single e s grp w h]
    exact spec_scan_state e s grp w
  · rw [entry_scan_not_single e s grp w h]
    exact Or.inl rfl

theorem entry_scan_state_of_event_guards (e : Ev) (s : Nat) (grp : List (transition Ev W))
    (w w' : W)
    (hg : ∀ t ∈ grp, ∀ w w', (invoke t.guard e w).1 = (invoke t.guard e w').1) :
    (entry_scan e s grp w).1 = (entry_scan e s grp w').1 := by
  by_cases h : grp.length = 1
  · rw [entry_scan_single e s grp w h, entry_scan_single e s grp w' h]
    exact spec_scan_state_of_event_guards e s grp w w' hg
  · rw [entry_scan_not_single e s grp w h, entry_scan_not_single e s grp w' h]

theorem entry_scan_no_eligible (e : Ev) (s : Nat) (grp : List (transition Ev W)) (w : W)
    (hno : ∀ t ∈ grp, t.src.hash = s → ∀ w, (invoke t.guard e w).1 = false) :
    (entry_scan e s grp w).1 = s := by
  by_cases h : grp.length = 1
  · rw [entry_scan_single e s grp w h]
    exact spec_scan_no_eligible e s grp w hno
  · rw [entry_scan_not_single e s grp w h]

theorem spec_scan_of_rejects (e : Ev) (s : Nat) (grp : List (transition Ev W)) (w w1 : W)
    (h : scan_rejects e s grp w = some w1) : spec_scan e s grp w = (s, w1) := by
  have h2 := spec_scan_append_of_rejects e s [] grp w w1 h
  rw [List.append_nil] at h2
  rw [h2]
  rfl

theorem scan_rejects_with_actions (e : Ev) (s : Nat)
    (f : transition Ev W → invokable Ev W Unit) :
    ∀ (l : List (transition Ev W)) (w : W),
      scan_rejects e s (l.map (transition.with_action f)) w = scan_rejects e s l w := by
  intro l
  induction l with
  | nil => intro w; rfl
  | cons t l ih =>
    intro w
    simp only [List.map_cons, scan_rejects, transition.with_action, ih]

theorem scan_rejects_pure (e : Ev) (s : Nat) :
    ∀ (l : List (transition Ev W)) (w w1 : W),
      (∀ t ∈ l, ∀ w, (invoke t.guard e w).2 = w) →
      scan_rejects e s l w = some w1 → w1 = w := by
  intro l
  induction l with
  | nil =>
    intro w w1 _ h
    simp only [scan_rejects, Option.some.injEq] at h
    exact h.symm
  | cons t l ih =>
    intro w w1 hp h
    have hpl : ∀ t ∈ l, ∀ w, (invoke t.guard e w).2 = w :=
      fun t' ht' => hp t' (List.mem_cons_of_mem _ ht')
    simp only [scan_rejects] at h
    by_cases hs : t.src.hash = s
    · simp only [hs, if_true] at h
      by_cases hg : (invoke t.guard e w).1 = true
      · simp [hg] at h
      · simp only [hg, if_false, Bool.false_eq_true] at h
        rw [hp t (List.mem_cons_self _ _) w] at h
        exact ih _ _ hpl h
    · simp only [hs, if_false] at h
      exact ih _ _ hpl h

theorem regions_reject_with_actions (E : Nat) (e : Ev)
    (f : transition Ev W → invokable Ev W Unit) (ts : List (transition Ev W)) :
    ∀ (cs : List Nat) (w : W),
      regions_reject E e (ts.map (transition.with_action f)) cs w =
        regions_reject E e ts cs w := by
  intro cs
  induction cs with
  | nil => intro w; rfl
  | cons s cs ih =>
    intro w
    simp only [regions_reject, transitions_of_with_actions, scan_rejects_with_actions, ih]

theorem regions_reject_pure (E : Nat) (e : Ev) (ts : List (transition Ev W))
    (hp : ∀ t ∈ transitions_of ts E, ∀ w, (invoke t.guard e w).2 = w) :
    ∀ (cs : List Nat) (w w1 : W), regions_reject E e ts cs w = some w1 → w1 = w := by
  intro cs
  induction cs with
  | nil =>
    intro w w1 h
    simp only [regions_reject, Option.some.injEq] at h
    exact h.symm
  | cons s cs ih =>
    intro w w1 h
    simp only [regions_reject] at h
    cases h1 : scan_rejects e s (transitions_of ts E) w with
    | none => simp [h1] at h
    | some w2 =>
      simp only [h1] at h
      have h2 := scan_rejects_pure e s _ w w2 hp h1
      rw [h2] at h
      exact ih _ _ h

/-- With exactly one transition of the event type, the dispatch of the regions
`a, ..., a + k - 1`, none of which has an eligible transition, leaves the
machine as it is and the world as the guards leave it. -/
theorem process_event_seq_of_rejects (earlier : List Nat) (m : sm Ev W) (E : Nat) (e : Ev)
    (hsingle : (transitions_of m.transition_table_ E).length = 1) :
    ∀ (k a : Nat) (w w1 : W), a + k ≤ m.current_state_.length →
      regions_reject E e m.transition_table_ ((m.current_state_.drop a).take k) w = some w1 →
      sm.process_event_seq earlier E e (List.range' a k) m w = (m, w1) := by
  intro k
  induction k with
  | zero =>
    intro a w w1 _ h
    simp only [List.take_zero, regions_reject, Option.some.injEq] at h
    subst h
    rfl
  | succ k ih =>
    intro a w w1 ha h
    have hlt : a < m.current_state_.length := by omega
    rw [List.drop_eq_getElem_cons hlt, List.take_succ_cons] at h
    simp only [regions_reject] at h
    cases h1 : scan_rejects e m.current_state_[a] (transitions_of m.transition_table_ E) w with
    | none => simp [h1] at h
    | some w2 =>
      simp only [h1] at h
      have hget : m.current_state_.getD a 0 = m.current_state_[a] :=
        List.getD_eq_getElem _ _ hlt
      have hstep : sm.dispatch_region earlier m E e a w = (m, w2) := by
        rw [dispatch_region_eq, entry_scan_single e _ _ w hsingle, hget,
          spec_scan_of_rejects e _ _ w w2 h1]
        simp only
        rw [← hget, set_getD_self]
      simp only [List.range'_succ, sm.process_event_seq, hstep]
      exact ih (a + 1) w2 w1 (by omega) h

/-- When no region has an eligible transition, `process_event` leaves the
machine as it is, and its world is the same whatever the actions are. -/
theorem process_event_of_rejects (earlier : List Nat) (m : sm Ev W) (E : Nat) (e : Ev)
    (w w1 : W)
    (hlen : m.current_state_.length = num_of_regions m.transition_table_)
    (hno : regions_reject E e m.transition_table_ m.current_state_ w = some w1) :
    ∃ w2, m.process_event earlier E e w = (m, w2) ∧
      (∀ f, (m.with_actions f).process_event earlier E e w = (m.with_actions f, w2)) ∧
      ((∀ t ∈ transitions_of m.transition_table_ E, ∀ w0, (invoke t.guard e w0).2 = w0) →
        w2 = w) := by
  have hn : ∀ f, num_of_regions (m.with_actions f).transition_table_ =
      num_of_regions m.transition_table_ := fun f => num_of_regions_with_actions f _
  have hgl : ∀ f, (transitions_of (m.with_actions f).transition_table_ E).length =
      (transitions_of m.transition_table_ E).length := by
    intro f
    simp only [sm.with_actions, transitions_of_with_actions, List.length_map]
  by_cases hs : (transitions_of m.transition_table_ E).length = 1
  · have hall : (m.current_state_.drop 0).take (num_of_regions m.transition_table_) =
        m.current_state_ := by
      rw [List.drop_zero, ← hlen, List.take_length]
    refine ⟨w1, ?_, ?_, ?_⟩
    · rw [process_event_eq_seq, List.range_eq_range']
      apply process_event_seq_of_rejects earlier m E e hs _ 0 w w1 (by omega)
      rw [hall]
      exact hno
    · intro f
      rw [process_event_eq_seq, List.range_eq_range', hn f]
      apply process_event_seq_of_rejects earlier (m.with_actions f) E e
        (by rw [hgl f]; exact hs) _ 0 w w1
      · show 0 + num_of_regions m.transition_table_ ≤ m.current_state_.length
        omega
      · show regions_reject E e (m.transition_table_.map (transition.with_action f))
          ((m.current_state_.drop 0).take (num_of_regions m.transition_table_)) w = some w1
        rw [regions_reject_with_actions, hall]
        exact hno
    · intro hp
      exact regions_reject_pure E e _ hp _ w w1 hno
  · refine ⟨w, ?_, ?_, fun _ => rfl⟩
    · rw [process_event_eq_seq]
      exact process_event_seq_not_single earlier m E e hs _ w
    · intro f
      rw [process_event_eq_seq]
      exact process_event_seq_not_single earlier (m.with_actions f) E e
        (by rw [hgl f]; exact hs) _ w

end regions

section construction

variable {Ev W : Type}

theorem is_initial_iff (t : transition Ev W) :
    is_initial t = true ↔ t.src.data.head? = some STAR := by
  unfold is_initial
  cases h : t.src.data with
  | nil => simp [STAR]
  | cons c cs => simp

theorem filter_marked_eq (ts : List (transition Ev W)) :
    ts.filter (fun t => decide (t.src.data.head? = some STAR)) = ts.filter is_initial := by
  apply List.filter_congr
  intro t _
  by_cases h : is_initial t = true
  · simp [h, (is_initial_iff t).1 h]
  · have h2 : ¬ t.src.data.head? = some STAR := fun hc => h ((is_initial_iff t).2 hc)
    simp [h, h2]

theorem num_of_regions_eq_countP (ts : List (transition Ev W)) :
    num_of_regions ts = ts.countP is_initial := by
  induction ts with
  | nil => rfl
  | cons t ts ih =>
    have hcons : num_of_regions (t :: ts) =
        (if is_initial t then 1 else 0) + num_of_regions ts := by
      simp [num_of_regions]
    rw [hcons, ih, List.countP_cons]
    by_cases h : is_initial t = true <;> simp [h, Nat.add_comm]

theorem num_of_regions_eq_length (ts : List (transition Ev W)) :
    num_of_regions ts = (ts.filter is_initial).length := by
  rw [num_of_regions_eq_countP, List.countP_eq_length_filter]

theorem num_of_regions_pos_iff (ts : List (transition Ev W)) :
    0 < num_of_regions ts ↔ ∃ t ∈ ts, is_initial t = true := by
  rw [num_of_regions_eq_countP, List.countP_pos_iff]

theorem seed_length (states : List Nat) :
    ∀ acc : List Nat × Nat, (states.foldl sm.seed_body acc).1.length = acc.1.length := by
  induction states with
  | nil => intro acc; rfl
  | cons x xs ih =>
    intro acc
    rw [List.foldl_cons, ih]
    unfold sm.seed_body
    split <;> simp

theorem ctor_length (ts : List (transition Ev W)) :
    (sm.ctor ts).current_state_.length = num_of_regions ts := by
  simp [sm.ctor, seed_length]

/-- The loop of the constructor writes the nonzero elements of `states`, in
order, from the position of the pointer on. -/
theorem seed_foldl (states : List Nat) :
    ∀ (done : List Nat) (k : Nat), (states.filter (fun x => decide (x ≠ 0))).length ≤ k →
      states.foldl sm.seed_body (done ++ List.replicate k 0, done.length) =
        (done ++ states.filter (fun x => decide (x ≠ 0)) ++
            List.replicate (k - (states.filter (fun x => decide (x ≠ 0))).length) 0,
          done.length + (states.filter (fun x => decide (x ≠ 0))).length) := by
  induction states with
  | nil => intro done k _; simp
  | cons x xs ih =>
    intro done k hk
    rw [List.foldl_cons]
    by_cases hx : x = 0
    · subst hx
      have hf : (0 :: xs).filter (fun x => decide (x ≠ 0)) =
          xs.filter (fun x => decide (x ≠ 0)) := by simp
      rw [hf] at hk ⊢
      have hb : sm.seed_body (done ++ List.replicate k 0, done.length) 0 =
          (done ++ List.replicate k 0, done.length) := by simp [sm.seed_body]
      rw [hb]
      exact ih done k hk
    · have hf : (x :: xs).filter (fun x => decide (x ≠ 0)) =
          x :: xs.filter (fun x => decide (x ≠ 0)) := by simp [hx]
      rw [hf] at hk ⊢
      simp only [List.length_cons] at hk ⊢
      obtain ⟨j, rfl⟩ : ∃ j, k = j + 1 := ⟨k - 1, by omega⟩
      have hb : sm.seed_body (done ++ List.replicate (j + 1) 0, done.length) x =
          ((done ++ [x]) ++ List.replicate j 0, (done ++ [x]).length) := by
        simp only [sm.seed_body, ne_eq, hx, not_false_eq_true, if_true]
        rw [fixed_string.set_at_length]
        simp
      rw [hb, ih (done ++ [x]) j (by omega)]
      have hsub : j + 1 - ((xs.filter (fun x => decide (x ≠ 0))).length + 1) =
          j - (xs.filter (fun x => decide (x ≠ 0))).length := by omega
      rw [hsub]
      simp [Nat.add_assoc, Nat.add_comm 1]

theorem states_nonzero_le (ts : List (transition Ev W)) :
    ((sm.states ts).filter (fun x => decide (x ≠ 0))).length ≤ num_of_regions ts := by
  induction ts with
  | nil => simp [sm.states]
  | cons t ts ih =>
    have hcons : num_of_regions (t :: ts) =
        (if is_initial t then 1 else 0) + num_of_regions ts := by
      simp [num_of_regions]
    have hs : sm.states (t :: ts) =
        (if is_initial t then t.src.hash else 0) :: sm.states ts := by
      simp [sm.states]
    rw [hcons, hs]
    simp only [ne_eq] at ih
    by_cases hi : is_initial t = true
    · by_cases hz : t.src.hash = 0
      · simp only [hi, hz, if_true, ne_eq, not_true_eq_false, decide_False,
          Bool.false_eq_true, not_false_eq_true, List.filter_cons_of_neg]
        omega
      · simp only [hi, if_true, ne_eq, hz, not_false_eq_true, decide_True,
          List.filter_cons_of_pos, List.length_cons]
        omega
    · simp only [hi, Bool.false_eq_true, if_false, ne_eq, not_true_eq_false, decide_False,
        not_false_eq_true, List.filter_cons_of_neg, Nat.zero_add]
      exact ih

/-- The array of current states after construction: the nonzero hashes of the
initial-marked sources in table order, followed by zeros. -/
theorem ctor_current_state (ts : List (transition Ev W)) :
    (sm.ctor ts).current_state_ =
      (sm.states ts).filter (fun x => decide (x ≠ 0)) ++
        List.replicate
          (num_of_regions ts - ((sm.states ts).filter (fun x => decide (x ≠ 0))).length) 0 := by
  have h := seed_foldl (sm.states ts) [] (num_of_regions ts) (states_nonzero_le ts)
  simp only [List.nil_append, List.length_nil, Nat.zero_add] at h
  simp only [sm.ctor, h]

/-- A list of numbers is, up to order, its nonzero elements followed by as
many zeros as remain. -/
theorem perm_nonzero_zeros (l : List Nat) :
    (l.filter (fun x => decide (x ≠ 0)) ++
      List.replicate (l.length - (l.filter (fun x => decide (x ≠ 0))).length) 0).Perm l := by
  induction l with
  | nil => simp
  | cons x l ih =>
    have hle : (l.filter (fun x => decide (x ≠ 0))).length ≤ l.length :=
      List.length_filter_le _ _
    by_cases hx : x = 0
    · subst hx
      have hf : (0 :: l).filter (fun x => decide (x ≠ 0)) =
          l.filter (fun x => decide (x ≠ 0)) := by simp
      have hk : (0 :: l).length - (l.filter (fun x => decide (x ≠ 0))).length =
          (l.length - (l.filter (fun x => decide (x ≠ 0))).length) + 1 := by
        simp only [List.length_cons]
        omega
      rw [hf, hk, List.replicate_succ]
      exact List.perm_middle.trans (List.Perm.cons 0 ih)
    · have hf : (x :: l).filter (fun x => decide (x ≠ 0)) =
          x :: l.filter (fun x => decide (x ≠ 0)) := by simp [hx]
      have hk : (x :: l).length - (x :: l.filter (fun x => decide (x ≠ 0))).length =
          l.length - (l.filter (fun x => decide (x ≠ 0))).length := by
        simp only [List.length_cons]
        omega
      rw [hf, hk, List.cons_append]
      exact List.Perm.cons x ih

theorem states_nonzero_eq (ts : List (transition Ev W)) :
    (sm.states ts).filter (fun x => decide (x ≠ 0)) =
      ((initial_sources ts).map (fun s => s.hash)).filter (fun x => decide (x ≠ 0)) := by
  induction ts with
  | nil => rfl
  | cons t ts ih =>
    have hs : sm.states (t :: ts) =
        (if is_initial t then t.src.hash else 0) :: sm.states ts := by
      simp [sm.states]
    simp only [initial_sources] at ih
    rw [hs]
    by_cases hi : is_initial t = true
    · have h1 : initial_sources (t :: ts) = t.src :: initial_sources ts := by
        simp [initial_sources, hi]
      rw [h1]
      simp only [hi, if_true, List.map_cons, initial_sources]
      by_cases hz : t.src.hash = 0
      · simp only [hz, ne_eq, not_true_eq_false, decide_False, Bool.false_eq_true,
          not_false_eq_true, List.filter_cons_of_neg]
        simpa using ih
      · simp only [ne_eq, hz, not_false_eq_true, decide_True, List.filter_cons_of_pos]
        simpa using ih
    · have h1 : initial_sources (t :: ts) = initial_sources ts := by
        simp [initial_sources, hi]
      rw [h1]
      simp only [hi, Bool.false_eq_true, if_false, ne_eq, not_true_eq_false, decide_False,
        not_false_eq_true, List.filter_cons_of_neg, initial_sources]
      simpa using ih

/-- The array of current states after construction is, up to order, the list
of the hashes of the initial-marked sources. -/
theorem ctor_perm (ts : List (transition Ev W)) :
    (sm.ctor ts).current_state_.Perm ((initial_sources ts).map (fun s => s.hash)) := by
  have hn : num_of_regions ts = ((initial_sources ts).map (fun s => s.hash)).length := by
    rw [List.length_map, initial_sources, List.length_map, num_of_regions_eq_length]
  rw [ctor_current_state, states_nonzero_eq, hn]
  exact perm_nonzero_zeros _

end construction

section reachable

variable {Ev W : Type}

theorem process_event_seq_invariant (earlier : List Nat) (Q : Nat → Prop) (E : Nat) (e : Ev)
    (Rs : List Nat) :
    ∀ (m : sm Ev W) (w : W), (∀ s ∈ m.current_state_, Q s) →
      (∀ t ∈ m.transition_table_, t.dst.size ≠ 0 → Q t.dst.hash) →
      ∀ s ∈ (sm.process_event_seq earlier E e Rs m w).1.current_state_, Q s := by
  induction Rs with
  | nil => intro m w h _; exact h
  | cons R Rs ih =>
    intro m w h hd
    simp only [sm.process_event_seq]
    apply ih
    · rw [dispatch_region_eq]
      intro s hs
      simp only at hs
      rcases List.mem_or_eq_of_mem_set hs with h1 | h1
      · exact h s h1
      · rcases entry_scan_state e (m.current_state_.getD R 0)
            (transitions_of m.transition_table_ E) w with h2 | ⟨t, ht, hsz, hh⟩
        · rw [h2] at h1
          have hmem : s ∈ m.current_state_ := by
            rw [h2, set_getD_self] at hs
            exact hs
          exact h s hmem
        · rw [h1, ← hh]
          exact hd t (List.mem_of_mem_filter ht) hsz
    · rw [dispatch_region_eq]
      exact hd

theorem run_invariant (earlier : List Nat) (Q : Nat → Prop) (events : List (Nat × Ev)) :
    ∀ (p : sm Ev W × W), (∀ s ∈ p.1.current_state_, Q s) →
      (∀ t ∈ p.1.transition_table_, t.dst.size ≠ 0 → Q t.dst.hash) →
      (∀ s ∈ (sm.run earlier events p).1.current_state_, Q s) ∧
      (sm.run earlier events p).1.transition_table_ = p.1.transition_table_ ∧
      (sm.run earlier events p).1.current_state_.length = p.1.current_state_.length := by
  induction events with
  | nil => intro p h _; exact ⟨h, rfl, rfl⟩
  | cons ev events ih =>
    intro p h hd
    simp only [sm.run]
    have htab := process_event_table earlier p.1 ev.1 ev.2 p.2
    have hlen := process_event_length earlier p.1 ev.1 ev.2 p.2
    have hQ : ∀ s ∈ (p.1.process_event earlier ev.1 ev.2 p.2).1.current_state_, Q s := by
      rw [process_event_eq_seq]
      exact process_event_seq_invariant earlier Q ev.1 ev.2 _ p.1 p.2 h hd
    have h3 := ih (p.1.process_event earlier ev.1 ev.2 p.2) hQ (by rw [htab]; exact hd)
    rw [htab, hlen] at h3
    exact h3

theorem entry_scan_internal (e : Ev) (s : Nat) (t : transition Ev W) (w : W)
    (hint : t.dst.size = 0) : entry_scan e s [t] w = (s, fire_effect t e w s) := by
  simp only [entry_scan, spec_scan, fire_effect]
  by_cases hs : t.src.hash = s
  · by_cases hg : (invoke t.guard e w).1 = true
    · simp [hs, hg, hint]
    · simp [hs, hg]
  · simp [hs]

/-- With an internal transition as the only transition of the event type, the
dispatch of the regions `a, ..., a + k - 1` leaves the machine as it is and
applies the effect of the transition region after region. -/
theorem process_event_seq_internal (earlier : List Nat) (m : sm Ev W) (E : Nat) (e : Ev)
    (t : transition Ev W) (hgrp : transitions_of m.transition_table_ E = [t])
    (hint : t.dst.size = 0) :
    ∀ (k a : Nat) (w : W), a + k ≤ m.current_state_.length →
      sm.process_event_seq earlier E e (List.range' a k) m w =
        (m, ((m.current_state_.drop a).take k).foldl (fire_effect t e) w) := by
  intro k
  induction k with
  | zero => intro a w _; rfl
  | succ k ih =>
    intro a w ha
    have hlt : a < m.current_state_.length := by omega
    have hget : m.current_state_.getD a 0 = m.current_state_[a] :=
      List.getD_eq_getElem _ _ hlt
    have hstep : sm.dispatch_region earlier m E e a w =
        (m, fire_effect t e w m.current_state_[a]) := by
      rw [dispatch_region_eq, hgrp, entry_scan_internal e _ t w hint]
      simp only
      rw [set_getD_self, hget]
    rw [List.drop_eq_getElem_cons hlt, List.take_succ_cons, List.foldl_cons]
    simp only [List.range'_succ, sm.process_event_seq, hstep]
    exact ih (a + 1) _ (by omega)

end reachable

section observed

variable {Ev W : Type}

/-- The scan of an observed table: state and world are those of the scan of
the table itself, and the log grows by the labels of the calls made. -/
theorem traced_scan (E : Nat) (e : Ev) (s : Nat) :
    ∀ (ts : List (transition Ev W)) (i : Nat) (w : W) (log : List Nat),
      (spec_scan_table E e s (traced_from i ts) (w, log)).1 =
          (spec_scan_table E e s ts w).1 ∧
      (spec_scan_table E e s (traced_from i ts) (w, log)).2.1 =
          (spec_scan_table E e s ts w).2 ∧
      ∃ added, (spec_scan_table E e s (traced_from i ts) (w, log)).2.2 = log ++ added ∧
        (∀ k ∈ added, ∃ j t, i ≤ j ∧ ts[j - i]? = some t ∧ t.event = E ∧ t.src.hash = s ∧
          (k = 2 * j ∨ k = 2 * j + 1)) ∧
        (∀ j, 2 * j + 1 ∈ added → ∀ k ∈ added, k ≤ 2 * j + 1) ∧
        added.Pairwise (fun a b => a < b) := by
  intro ts
  induction ts with
  | nil =>
    intro i w log
    exact ⟨rfl, rfl, [], by simp [traced_from, spec_scan_table], by simp, by simp, by simp⟩
  | cons t ts ih =>
    intro i w log
    have hlift : ∀ (w' : W) (log' : List Nat),
        (spec_scan_table E e s (traced_from (i + 1) ts) (w', log')).1 =
            (spec_scan_table E e s ts w').1 ∧
        (spec_scan_table E e s (traced_from (i + 1) ts) (w', log')).2.1 =
            (spec_scan_table E e s ts w').2 ∧
        ∃ added, (spec_scan_table E e s (traced_from (i + 1) ts) (w', log')).2.2 =
            log' ++ added ∧
          (∀ k ∈ added, ∃ j t', i + 1 ≤ j ∧ (t :: ts)[j - i]? = some t' ∧ t'.event = E ∧
            t'.src.hash = s ∧ (k = 2 * j ∨ k = 2 * j + 1)) ∧
          (∀ j, 2 * j + 1 ∈ added → ∀ k ∈ added, k ≤ 2 * j + 1) ∧
          added.Pairwise (fun a b => a < b) := by
      intro w' log'
      obtain ⟨h1, h2, added, h3, h4, h5, h6⟩ := ih (i + 1) w' log'
      refine ⟨h1, h2, added, h3, ?_, h5, h6⟩
      intro k hk
      obtain ⟨j, t', hj, hget, hev, hsrc, hk'⟩ := h4 k hk
      refine ⟨j, t', hj, ?_, hev, hsrc, hk'⟩
      have hji : j - i = (j - (i + 1)) + 1 := by omega
      rw [hji, List.getElem?_cons_succ]
      exact hget
    have hweak : ∀ (w' : W) (log' : List Nat),
        (spec_scan_table E e s (traced_from (i + 1) ts) (w', log')).1 =
            (spec_scan_table E e s ts w').1 ∧
        (spec_scan_table E e s (traced_from (i + 1) ts) (w', log')).2.1 =
            (spec_scan_table E e s ts w').2 ∧
        ∃ added, (spec_scan_table E e s (traced_from (i + 1) ts) (w', log')).2.2 =
            log' ++ added ∧
          (∀ k ∈ added, ∃ j t', i ≤ j ∧ (t :: ts)[j - i]? = some t' ∧ t'.event = E ∧
            t'.src.hash = s ∧ (k = 2 * j ∨ k = 2 * j + 1)) ∧
          (∀ j, 2 * j + 1 ∈ added → ∀ k ∈ added, k ≤ 2 * j + 1) ∧
          added.Pairwise (fun a b => a < b) := by
      intro w' log'
      obtain ⟨h1, h2, added, h3, h4, h5, h6⟩ := hlift w' log'
      refine ⟨h1, h2, added, h3, ?_, h5, h6⟩
      intro k hk
      obtain ⟨j, t', hj, hrest⟩ := h4 k hk
      exact ⟨j, t', by omega, hrest⟩
    have hev : (t.traced i).event = t.event := rfl
    have hsrc : (t.traced i).src = t.src := rfl
    have hdst : (t.traced i).dst = t.dst := rfl
    have hguard : invoke (t.traced i).guard e (w, log) =
        ((invoke t.guard e w).1, ((invoke t.guard e w).2, log ++ [2 * i])) := rfl
    have haction : ∀ w' log', invoke (t.traced i).action e (w', log') =
        ((invoke t.action e w').1, ((invoke t.action e w').2, log' ++ [2 * i + 1])) :=
      fun _ _ => rfl
    simp only [traced_from, spec_scan_table, hev, hsrc, hdst, hguard, haction]
    by_cases hE : t.event = E
    · by_cases hs : t.src.hash = s
      · simp only [hE, hs, ne_eq, not_true_eq_false, if_false]
        by_cases hg : (invoke t.guard e w).1 = true
        · simp only [hg, if_true]
          refine ⟨trivial, trivial, [2 * i, 2 * i + 1], by simp, ?_, ?_, by simp⟩
          · intro k hk
            refine ⟨i, t, le_refl _, by simp, hE, hs, ?_⟩
            simpa using hk
          · intro j hj k hk
            simp only [List.mem_cons, List.mem_singleton, List.not_mem_nil, or_false] at hj hk
            omega
        · simp only [hg, Bool.false_eq_true, if_false]
          obtain ⟨h1, h2, added, h3, h4, h5, h6⟩ := hlift (invoke t.guard e w).2 (log ++ [2 * i])
          refine ⟨h1, h2, 2 * i :: added, by simp [h3], ?_, ?_, ?_⟩
          · intro k hk
            rcases List.mem_cons.1 hk with hk | hk
            · exact ⟨i, t, le_refl _, by simp, hE, hs, Or.inl hk⟩
            · obtain ⟨j, t', hj, hrest⟩ := h4 k hk
              exact ⟨j, t', by omega, hrest⟩
          · intro j hj k hk
            have hj' : 2 * j + 1 ∈ added := by
              rcases List.mem_cons.1 hj with hj | hj
              · omega
              · exact hj
            rcases List.mem_cons.1 hk with hk | hk
            · obtain ⟨j', _, hj1, _, _, _, hj2⟩ := h4 _ hj'
              omega
            · exact h5 j hj' k hk
          · rw [List.pairwise_cons]
            refine ⟨?_, h6⟩
            intro k hk
            obtain ⟨j', _, hj1, _, _, _, hj2⟩ := h4 _ hk
            omega
      · simp only [hE, ne_eq, not_true_eq_false, if_false, hs, not_false_eq_true, if_true]
        exact hweak w log
    · simp only [ne_eq, hE, not_false_eq_true, if_true]
      exact hweak w log

theorem transitions_of_traced_length (E : Nat) :
    ∀ (ts : List (transition Ev W)) (i : Nat),
      (transitions_of (traced_from i ts) E).length = (transitions_of ts E).length := by
  intro ts
  induction ts with
  | nil => intro i; rfl
  | cons t ts ih =>
    intro i
    have hev : (t.traced i).event = t.event := rfl
    have h := ih (i + 1)
    simp only [transitions_of] at h
    by_cases hE : t.event = E
    · simp [transitions_of, traced_from, hev, hE, h]
    · simp [transitions_of, traced_from, hev, hE, h]

/-- The observed table `tables.priority` in the state `s1`: for the event type
2 the guard and the action of `p3` (position 1) are called; for the event
type 1, which has three transitions, nothing is called. -/
theorem traced_priority_log :
    (sm.dispatch_region [] (sm.mk (traced_table tables.priority) [430]) 2 () 0
      ([], [])).2.2 = [2, 3] ∧
    (sm.dispatch_region [] (sm.mk (traced_table tables.priority) [430]) 1 () 0
      ([], [])).2.2 = [] := by
  decide

/-- The base classes of `mappings_t` for an event type carry consecutive
indices, from the number of earlier uses of the counter for the event type,
and the transitions of the table of that event type in declaration order;
`dispatch` with the first index given is the scan of the whole table that
skips the other event types, and so is the entry of `dispatch` when the event
type has at most one transition. -/
theorem event_group_of_table (earlier : List Nat) (ts : List (transition Ev W))
    (TEvent : Nat) :
    (group_of (mappings_t earlier ts) TEvent).map (fun m => m.N) =
        List.range' (earlier.count TEvent) (transitions_of ts TEvent).length ∧
    (group_of (mappings_t earlier ts) TEvent).map (fun m => m.T) = transitions_of ts TEvent ∧
    (∀ (event : Ev) (current_state : Nat) (w : W),
      sm.dispatch (mappings_t earlier ts) TEvent event ((mappings_t earlier ts).length + 1)
          (earlier.count TEvent + 0) current_state w =
        spec_scan_table TEvent event current_state ts w) ∧
    ((transitions_of ts TEvent).length ≤ 1 →
      ∀ (event : Ev) (depth current_state : Nat) (w : W),
        sm.dispatch_entry (mappings_t earlier ts) TEvent event depth current_state w =
          spec_scan_table TEvent event current_state ts w) := by
  have h := mappings_from_group ts _ _ (flags_inv_after earlier) TEvent
  rw [← mappings_t] at h
  refine ⟨h.1, h.2, ?_, ?_⟩
  · intro event current_state w
    rw [spec_scan_table_eq, dispatch_eq_scan earlier ts TEvent event _ 0 current_state w
      (by have := transitions_of_length_le earlier ts TEvent; omega)]
    rfl
  · intro hle event depth current_state w
    rw [dispatch_entry_eq, spec_scan_table_eq]
    by_cases h1 : (transitions_of ts TEvent).length = 1
    · exact entry_scan_single event _ _ w h1
    · have h0 : transitions_of ts TEvent = [] := List.length_eq_zero.1 (by omega)
      rw [h0]
      rfl

end observed



/-- C1 on the table `tables.priority` in its initial state `s1` (hash 430), for
an event of type 1: the transitions of the event type are `p0`, `p1`, `p2`;
`p0` is rejected (guard false) and `p1` has the source `s1` and a true guard,
so the scan of the claim fires `p1` (state `s2`, hash 424, and record 1). But
`process_event` fires nothing: three base classes have the event type, the
deduction of `N` and `T` at the entry of `dispatch` fails and the variadic
overload is called. -/
theorem C1_ambiguous_entry_fires_nothing :
    transitions_of tables.priority 1 = [tables.p0, tables.p1, tables.p2] ∧
    scan_rejects () 430 [tables.p0] [] = some [] ∧
    tables.p1.src.hash = 430 ∧
    (invoke tables.p1.guard () []).1 = true ∧
    spec_scan_table 1 () 430 tables.priority [] = (424, [1]) ∧
    (sm.ctor tables.priority).current_state_ = [430] ∧
    ((sm.ctor tables.priority).process_event [] 1 () []).1.current_state_ = [430] ∧
    ((sm.ctor tables.priority).process_event [] 1 () []).2 = [] :=
  ⟨rfl, by decide, by decide, by decide, by decide, by decide, by decide, by decide⟩

/-- C2: construction fails with the configuration error exactly for the tables
without an initial-marked source and succeeds for all the others; a table
with exactly one initial-marked source gives a machine with one region. -/
theorem C2_construct_requires_initial {Ev W : Type} (ts : List (transition Ev W)) :
    ((∀ t ∈ ts, t.src.data.head? ≠ some STAR) →
        sm.construct ts = Except.error REGION_ERROR) ∧
    ((∃ t ∈ ts, t.src.data.head? = some STAR) →
        sm.construct ts = Except.ok (sm.ctor ts)) ∧
    ((ts.filter (fun t => decide (t.src.data.head? = some STAR))).length = 1 →
        sm.construct ts = Except.ok (sm.ctor ts) ∧ num_of_regions ts = 1 ∧
          (sm.ctor ts).current_state_.length = 1) := by
  have hfilter := filter_marked_eq ts
  refine ⟨?_, ?_, ?_⟩
  · intro h
    have hz : ¬ 0 < num_of_regions ts := by
      rw [num_of_regions_pos_iff]
      rintro ⟨t, ht, hi⟩
      exact h t ht ((is_initial_iff t).1 hi)
    simp [sm.construct, hz]
  · rintro ⟨t, ht, hi⟩
    have hp : 0 < num_of_regions ts :=
      (num_of_regions_pos_iff ts).2 ⟨t, ht, (is_initial_iff t).2 hi⟩
    simp [sm.construct, hp]
  · intro h
    rw [hfilter, ← num_of_regions_eq_length] at h
    refine ⟨?_, h, ?_⟩
    · simp [sm.construct, h]
    · rw [ctor_length, h]

/-- Witness of C2 on the empty table and on the table `tables.single`. -/
theorem C2_construct_requires_initial_witness :
    sm.construct ([] : List (transition Unit (List Nat))) = Except.error REGION_ERROR ∧
    (sm.construct tables.single = Except.ok (sm.ctor tables.single) ∧
      num_of_regions tables.single = 1 ∧ (sm.ctor tables.single).current_state_.length = 1) :=
  ⟨(C2_construct_requires_initial []).1 (by simp),
   (C2_construct_requires_initial tables.single).2.2 (by decide)⟩

/-- C3, evaluated on the table `tables.zero_hash`: the first initial-marked
source has hash 0 and the second has hash 430, but region 0 holds 430 and
region 1 holds 0. -/
theorem C3_zero_hash_source_breaks_positional_seeding :
    num_of_regions tables.zero_hash = 2 ∧
    (initial_sources tables.zero_hash).map (fun s => s.hash) = [0, 430] ∧
    (sm.ctor tables.zero_hash).current_state_ = [430, 0] := by
  decide

/-- C4: the region count is the number of transitions of the table whose source
name starts with the initial marker, and the constructed array of current
states has that many elements. -/
theorem C4_region_count_counts_marked_transitions {Ev W : Type}
    (ts : List (transition Ev W)) :
    num_of_regions ts =
        (ts.filter (fun t => decide (t.src.data.head? = some STAR))).length ∧
    (sm.ctor ts).current_state_.length =
        (ts.filter (fun t => decide (t.src.data.head? = some STAR))).length := by
  have hfilter := filter_marked_eq ts
  rw [hfilter, ctor_length, num_of_regions_eq_length]
  exact ⟨rfl, rfl⟩

/-- C5 fails on the table `tables.shared_source`: two transitions carry the
same initial-marked source, the region count is 2 and the number of distinct
initial-marked sources is 1. -/
theorem C5_counterexample_shared_source :
    num_of_regions tables.shared_source = 2 ∧
    (initial_sources tables.shared_source).dedup.length = 1 ∧
    num_of_regions tables.shared_source ≠
      (initial_sources tables.shared_source).dedup.length := by
  decide

/-- C5, amended: when no two initial-marked transitions of the table have the
same source, the region count is the number of distinct initial-marked
sources. -/
theorem C5_region_count_of_distinct_sources {Ev W : Type} (ts : List (transition Ev W))
    (h : (initial_sources ts).Nodup) :
    num_of_regions ts = (initial_sources ts).dedup.length := by
  rw [h.dedup, initial_sources, List.length_map, num_of_regions_eq_length]

/-- Witness of the amended C5 on the table `tables.two_regions`. -/
theorem C5_region_count_of_distinct_sources_witness :
    (initial_sources tables.two_regions).Nodup ∧
    num_of_regions tables.two_regions = (initial_sources tables.two_regions).dedup.length :=
  ⟨by decide, C5_region_count_of_distinct_sources tables.two_regions (by decide)⟩

/-- C6: when no region has an eligible transition for the event at the call
(region after region, the scan of the transitions of the event type finds no
transition whose source is the current state of the region and whose guard
returns true), `process_event` leaves the current state of every region
unchanged and executes no action: the resulting world does not depend on the
actions of the table, and it is the world before the call when the guards
leave the world alone. The same holds for any number of repeated calls, as
long as no region has an eligible transition at each of them. -/
theorem C6_unmatched_event_is_noop {Ev W : Type} (earlier : List Nat) (m : sm Ev W)
    (TEvent : Nat) (event : Ev) (w w1 : W)
    (hlen : m.current_state_.length = num_of_regions m.transition_table_)
    (hno : regions_reject TEvent event m.transition_table_ m.current_state_ w = some w1) :
    (m.process_event earlier TEvent event w).1 = m ∧
    (∀ f, ((m.with_actions f).process_event earlier TEvent event w).2 =
        (m.process_event earlier TEvent event w).2) ∧
    ((∀ t ∈ transitions_of m.transition_table_ TEvent, ∀ w0, (invoke t.guard event w0).2 = w0) →
      ∀ n, sm.process_n earlier TEvent event n (m, w) = (m, w)) ∧
    (∀ n, (∀ k, k < n → ∃ wk, regions_reject TEvent event m.transition_table_
          m.current_state_ (sm.process_n earlier TEvent event k (m, w)).2 = some wk) →
      (sm.process_n earlier TEvent event n (m, w)).1 = m) := by
  obtain ⟨w2, h1, h2, h3⟩ := process_event_of_rejects earlier m TEvent event w w1 hlen hno
  refine ⟨by rw [h1], ?_, ?_, ?_⟩
  · intro f
    rw [h1, h2 f]
  · intro hp n
    have hw : w2 = w := h3 hp
    rw [hw] at h1
    induction n with
    | zero => rfl
    | succ n ih =>
      simp only [sm.process_n]
      rw [h1]
      exact ih
  · intro n
    have key : ∀ (n : Nat) (w0 : W),
        (∀ k, k < n → ∃ wk, regions_reject TEvent event m.transition_table_
          m.current_state_ (sm.process_n earlier TEvent event k (m, w0)).2 = some wk) →
        (sm.process_n earlier TEvent event n (m, w0)).1 = m := by
      intro n
      induction n with
      | zero => intro w0 _; rfl
      | succ n ih =>
        intro w0 hall
        obtain ⟨wk, hk⟩ := hall 0 (by omega)
        obtain ⟨w3, h4, _, _⟩ :=
          process_event_of_rejects earlier m TEvent event w0 wk hlen hk
        simp only [sm.process_n]
        rw [h4]
        apply ih
        intro k hk'
        have h5 := hall (k + 1) (by omega)
        simp only [sm.process_n] at h5
        rw [h4] at h5
        exact h5
    exact key n w

/-- Witness of C6 on the table `tables.single` in the state `s2` (hash 424),
where no transition has the source `s2`: five calls with an event of type 1
leave the machine and the world as they are. -/
theorem C6_unmatched_event_is_noop_witness :
    sm.process_n [] 1 () 5 (sm.mk tables.single [424], []) =
      (sm.mk tables.single [424], []) :=
  (C6_unmatched_event_is_noop [] (sm.mk tables.single [424]) 1 () [] [] (by decide)
    (by decide)).2.2.1
    (by
      intro t ht w
      simp only [tables.single, transitions_of, List.mem_filter, List.mem_singleton] at ht
      rw [ht.1]
      rfl) 5

/-- C7: when the transition `t` that fires in region `r` has no destination
(`dst.size` is zero), where `t` fires in region `r` when the entry of `dispatch`
deduces the base class of `t`, the source of `t` is the current state of
region `r` and the guard of `t` returns true in the world left by the regions
before `r`: `process_event` leaves the current state of every region as it
was, and its world is the world in which the action of `t` has run after its
guard, followed by the effect of `t` in the regions after `r`; for a machine
with one region it is the world left by the guard and then the action of
`t`. -/
theorem C7_internal_transition_keeps_state {Ev W : Type} (earlier : List Nat) (m : sm Ev W)
    (TEvent : Nat) (event : Ev) (w : W) (r N : Nat) (t : transition Ev W)
    (hlen : m.current_state_.length = num_of_regions m.transition_table_)
    (hr : r < num_of_regions m.transition_table_)
    (hbase : base_of_event (mappings_t earlier m.transition_table_) TEvent = some (N, t))
    (hsrc : t.src.hash = m.current_state_.getD r 0)
    (hguard : (invoke t.guard event
      ((m.current_state_.take r).foldl (fire_effect t event) w)).1 = true)
    (hint : t.dst.size = 0) :
    (m.process_event earlier TEvent event w).1 = m ∧
    (m.process_event earlier TEvent event w).2 =
      (m.current_state_.drop (r + 1)).foldl (fire_effect t event)
        (invoke t.action event (invoke t.guard event
          ((m.current_state_.take r).foldl (fire_effect t event) w)).2).2 ∧
    (num_of_regions m.transition_table_ = 1 →
      m.process_event earlier TEvent event w =
        (m, (invoke t.action event (invoke t.guard event w).2).2)) := by
  have hgrp : transitions_of m.transition_table_ TEvent = [t] := by
    rw [base_of_event_mappings_t] at hbase
    match hg : transitions_of m.transition_table_ TEvent with
    | [] => rw [hg] at hbase; simp at hbase
    | _ :: _ :: _ => rw [hg] at hbase; simp at hbase
    | [t1] =>
      rw [hg] at hbase
      simp only [Option.some.injEq, Prod.mk.injEq] at hbase
      rw [hbase.2]
  have hlt : r < m.current_state_.length := by omega
  have hget : m.current_state_.getD r 0 = m.current_state_[r] :=
    List.getD_eq_getElem _ _ hlt
  have hall : m.process_event earlier TEvent event w =
      (m, m.current_state_.foldl (fire_effect t event) w) := by
    have h := process_event_seq_internal earlier m TEvent event t hgrp hint
      (num_of_regions m.transition_table_) 0 w (by omega)
    rw [process_event_eq_seq, List.range_eq_range', h, List.drop_zero, ← hlen,
      List.take_length]
  have hsplit : m.current_state_.foldl (fire_effect t event) w =
      (m.current_state_.drop (r + 1)).foldl (fire_effect t event)
        (invoke t.action event (invoke t.guard event
          ((m.current_state_.take r).foldl (fire_effect t event) w)).2).2 := by
    have hcs : m.current_state_ =
        m.current_state_.take r ++ m.current_state_[r] :: m.current_state_.drop (r + 1) := by
      rw [← List.drop_eq_getElem_cons hlt, List.take_append_drop]
    conv_lhs => rw [hcs]
    rw [List.foldl_append, List.foldl_cons]
    congr 1
    simp only [fire_effect, hsrc, hget, if_true, hguard]
  refine ⟨by rw [hall], by rw [hall, hsplit], ?_⟩
  intro h1
  have hr0 : r = 0 := by omega
  subst hr0
  rw [hall, hsplit]
  have hd : m.current_state_.drop (0 + 1) = [] :=
    List.drop_eq_nil_of_le (by omega)
  rw [hd]
  rfl

/-- Witness of C7 on the table `tables.priority` in its initial state `s1`
(hash 430), for the event type 2: the internal transition `p3`, the only one
of its event type, fires, the state stays `s1` and 3 is recorded. -/
theorem C7_internal_transition_keeps_state_witness :
    (sm.ctor tables.priority).process_event [] 2 () [] = (sm.ctor tables.priority, [3]) :=
  (C7_internal_transition_keeps_state [] (sm.ctor tables.priority) 2 () [] 0 0 tables.p3
    (by decide) (by decide) (by rfl) (by decide) (by rfl) (by decide)).2.2 (by decide)

/-- C8: with guards whose result depends only on the event, the current state
of region `r` after `process_event` depends only on the current state of
region `r` before the call (and on the event): two machines with the same
table that agree on region `r` agree on it after the call, whatever the other
regions and the worlds are. A region without eligible transition keeps its
current state whatever happens in the other regions. -/
theorem C8_regions_are_independent {Ev W : Type} (earlier : List Nat) (m m' : sm Ev W)
    (TEvent : Nat) (event : Ev)
    (htab : m'.transition_table_ = m.transition_table_)
    (hlen : m.current_state_.length = num_of_regions m.transition_table_)
    (hlen' : m'.current_state_.length = num_of_regions m'.transition_table_)
    (hg : ∀ t ∈ m.transition_table_, ∀ w w',
      (invoke t.guard event w).1 = (invoke t.guard event w').1) :
    (∀ r w w', r < num_of_regions m.transition_table_ →
      m.current_state_.getD r 0 = m'.current_state_.getD r 0 →
      (m.process_event earlier TEvent event w).1.current_state_.getD r 0 =
        (m'.process_event earlier TEvent event w').1.current_state_.getD r 0) ∧
    (∀ r w, r < num_of_regions m.transition_table_ →
      no_eligible m.transition_table_ TEvent event (m.current_state_.getD r 0) →
      (m.process_event earlier TEvent event w).1.current_state_.getD r 0 =
        m.current_state_.getD r 0) := by
  constructor
  · intro r w w' hr hcs
    have h1 := (process_event_region earlier m TEvent event w r hlen hr).1
    have h2 := (process_event_region earlier m' TEvent event w' r hlen'
      (by rw [htab]; exact hr)).1
    rw [h1, h2, htab, ← hcs]
    apply entry_scan_state_of_event_guards
    intro t ht
    exact hg t (List.mem_of_mem_filter ht)
  · intro r w hr hno
    rw [(process_event_region earlier m TEvent event w r hlen hr).1]
    exact entry_scan_no_eligible event _ _ _ hno

/-- Witness of C8 on the two-region table `tables.two_regions` in its initial
state (`s1` and `s3`, hashes 430 and 426): an event of type 1 moves region 0 to
`s2` (hash 424) and leaves region 1 in `s3`. -/
theorem C8_regions_are_independent_witness :
    ((sm.ctor tables.two_regions).process_event [] 1 () []).1.current_state_.getD 1 0 =
        (sm.ctor tables.two_regions).current_state_.getD 1 0 ∧
    (sm.ctor tables.two_regions).current_state_ = [430, 426] ∧
    ((sm.ctor tables.two_regions).process_event [] 1 () []).1.current_state_ = [424, 426] :=
  ⟨(C8_regions_are_independent [] (sm.ctor tables.two_regions) (sm.ctor tables.two_regions)
      1 () rfl (by decide) (by decide)
      (by
        intro t ht w w'
        simp only [sm.ctor, tables.two_regions, List.mem_cons, List.mem_singleton,
          List.not_mem_nil, or_false] at ht
        rcases ht with h | h <;> rw [h] <;> rfl)).2 1 [] (by decide)
      (by
        intro t ht hsrc
        simp only [sm.ctor, tables.two_regions, transitions_of, List.mem_filter,
          List.mem_cons, List.mem_singleton, List.not_mem_nil, or_false] at ht
        rcases ht with ⟨h | h, he⟩
        · rw [h] at hsrc
          exact absurd hsrc (by decide)
        · rw [h] at he
          exact absurd he (by decide)),
    by decide, by decide⟩

/-- C9: marking a name `s` with `operator*` gives a name of `s.length + 1`
characters, `'*'` followed by the characters of `s` (and the terminating NUL), whose
hash is the hash of the plain name `s`. -/
theorem C9_star_keeps_state_id (s : List Nat) :
    (fixed_string.of_name s).star.size = s.length + 1 ∧
    (fixed_string.of_name s).star.data = STAR :: (s ++ [0]) ∧
    (fixed_string.of_name s).star.data.getD 0 0 = STAR ∧
    (fixed_string.of_name s).star.hash = (fixed_string.of_name s).hash := by
  have h := fixed_string.star_eq (fixed_string.of_name s)
    (by simp [fixed_string.of_name_eq])
  rw [h]
  simp [fixed_string.of_name_eq]

/-- C10: `operator and` evaluates `lhs` first; when `lhs` returns false the
result is false and `rhs` is not evaluated; otherwise `rhs` is evaluated once,
on the world left by `lhs`, and its result is the result. The second part
observes the calls: with `lhs` logging 1 and `rhs` logging 2, the log grows by
`[1]` in the first case and by `[1, 2]` in the second. -/
theorem C10_and_short_circuits {Ev W : Type} (g1 g2 : invokable Ev W Bool) (event : Ev)
    (w : W) (log : List Nat) :
    invoke (operator_and g1 g2) event w =
      (if (invoke g1 event w).1 then invoke g2 event (invoke g1 event w).2
        else (false, (invoke g1 event w).2)) ∧
    invoke (operator_and (traced 1 g1) (traced 2 g2)) event (w, log) =
      (if (invoke g1 event w).1 then
        ((invoke g2 event (invoke g1 event w).2).1,
          ((invoke g2 event (invoke g1 event w).2).2, log ++ [1, 2]))
        else (false, ((invoke g1 event w).2, log ++ [1]))) := by
  constructor
  · rfl
  · by_cases h : (invoke g1 event w).1 = true
    · simp [operator_and, traced, invoke, h]
    · simp [operator_and, traced, invoke, h]

/-- C11: `operator or` evaluates `lhs` first; when `lhs` returns true the
result is true and `rhs` is not evaluated; otherwise `rhs` is evaluated once,
on the world left by `lhs`, and its result is the result. The second part
observes the calls: with `lhs` logging 1 and `rhs` logging 2, the log grows by
`[1]` in the first case and by `[1, 2]` in the second. -/
theorem C11_or_short_circuits {Ev W : Type} (g1 g2 : invokable Ev W Bool) (event : Ev)
    (w : W) (log : List Nat) :
    invoke (operator_or g1 g2) event w =
      (if (invoke g1 event w).1 then (true, (invoke g1 event w).2)
        else invoke g2 event (invoke g1 event w).2) ∧
    invoke (operator_or (traced 1 g1) (traced 2 g2)) event (w, log) =
      (if (invoke g1 event w).1 then (true, ((invoke g1 event w).2, log ++ [1]))
        else
          ((invoke g2 event (invoke g1 event w).2).1,
            ((invoke g2 event (invoke g1 event w).2).2, log ++ [1, 2]))) := by
  constructor
  · rfl
  · by_cases h : (invoke g1 event w).1 = true
    · simp [operator_or, traced, invoke, h]
    · simp [operator_or, traced, invoke, h]

/-- C12: `operator,` runs `lhs` once and then `rhs` once, on the world left by
`lhs` and with the same event, whatever the type and the value of the result
of `lhs` are. The second part observes the calls: with `lhs` logging 1 and
`rhs` logging 2, the log grows by `[1, 2]`. -/
theorem C12_sequence_runs_both {Ev W A B : Type} (a1 : invokable Ev W A)
    (a2 : invokable Ev W B) (event : Ev) (w : W) (log : List Nat) :
    invoke (operator_comma a1 a2) event w =
      ((), (invoke a2 event (invoke a1 event w).2).2) ∧
    invoke (operator_comma (traced 1 a1) (traced 2 a2)) event (w, log) =
      ((), ((invoke a2 event (invoke a1 event w).2).2, log ++ [1, 2])) := by
  constructor
  · rfl
  · simp [operator_comma, traced, invoke]

/-- C13: after any sequence of calls of `process_event` the array of current
states has as many elements as it had after construction, the region count
of the table (and a machine in any state keeps its number of regions). -/
theorem C13_region_count_is_invariant {Ev W : Type} (earlier : List Nat)
    (ts : List (transition Ev W)) (events : List (Nat × Ev)) (w : W) :
    (sm.run earlier events (sm.ctor ts, w)).1.current_state_.length =
        (sm.ctor ts).current_state_.length ∧
    (sm.run earlier events (sm.ctor ts, w)).1.current_state_.length = num_of_regions ts ∧
    ∀ m : sm Ev W, (sm.run earlier events (m, w)).1.current_state_.length =
        m.current_state_.length := by
  have h : ∀ m : sm Ev W, (sm.run earlier events (m, w)).1.current_state_.length =
      m.current_state_.length := fun m =>
    (run_invariant earlier (fun _ => True) events (m, w) (fun _ _ => trivial)
      (fun _ _ _ => trivial)).2.2
  exact ⟨h _, by rw [h, ctor_length], h⟩

/-- C14 fails on the names `ab` and `ba`: they are permutations of each other
and their hashes are 320 and 330. -/
theorem C14_counterexample_permuted_names :
    List.Perm [97, 98] [98, 97] ∧
    (fixed_string.of_name [97, 98]).hash = 320 ∧
    (fixed_string.of_name [98, 97]).hash = 330 ∧
    (fixed_string.of_name [97, 98]).hash ≠ (fixed_string.of_name [98, 97]).hash := by
  decide

/-- C14, amended: the hash of a name is a function of the sequence of its
characters, in their order: the constructor computes the left fold of
`(hash ^= c) <<= 1` over the characters, from 0, reduced modulo `2 ^ 32`. -/
theorem C14_state_id_of_character_sequence (name : List Nat) :
    (fixed_string.of_name name).hash = name.foldl fixed_string.hash_step 0 ∧
    (fixed_string.of_name name).hash < 2 ^ 32 := by
  rw [fixed_string.of_name_eq]
  refine ⟨rfl, ?_⟩
  simp only
  rw [fixed_string.foldl_hash_step name 0 (by norm_num)]
  exact Nat.mod_lt _ (by norm_num)

/-- C15 on the table `tables.priority` and the event type 1: the base classes of
`mappings_t` for the event type carry the indices 0, 1, 2 and the transitions
`p0`, `p1`, `p2` in declaration order, as the claim says; but dispatching
through them from `process_event` does nothing (state 430, nothing recorded),
where the scan of the whole table gives the state 424 and records 1: the
deduction of `N` and `T` at the entry of `dispatch` fails with three base
classes of the event type. For a table that is not the first user of the
counter of the event type the indices start at the number of earlier uses
(here 1, 2, 3 after one use). -/
theorem C15_group_is_built_but_entry_is_ambiguous :
    (group_of (mappings_t [] tables.priority) 1).map (fun m => m.N) = [0, 1, 2] ∧
    (group_of (mappings_t [] tables.priority) 1).map (fun m => m.T) =
      [tables.p0, tables.p1, tables.p2] ∧
    transitions_of tables.priority 1 = [tables.p0, tables.p1, tables.p2] ∧
    ((sm.ctor tables.priority).dispatch_region [] 1 () 0 []).1.current_state_ = [430] ∧
    ((sm.ctor tables.priority).dispatch_region [] 1 () 0 []).2 = [] ∧
    spec_scan_table 1 () 430 tables.priority [] = (424, [1]) ∧
    (group_of (mappings_t [1] tables.priority) 1).map (fun m => m.N) = [1, 2, 3] :=
  ⟨by decide, rfl, rfl, by decide, by decide, by decide, by decide⟩

/-- C16: the dispatch for a region on the observed table (the guard of the
transition at position `j` logs `2 * j`, its action logs `2 * j + 1`) gives the
state and the world of the dispatch on the table itself, and the calls it
logs are such that: every call is a call of the guard or the action of a
transition of the event type whose source is the current state of the
region; once the action of the transition at position `j` is called, nothing
of a transition declared after it is called; and the calls follow the
declaration order, each made at most once. -/
theorem C16_guards_evaluated_only_when_needed {Ev W : Type} (earlier : List Nat)
    (ts : List (transition Ev W)) (cs : List Nat) (TEvent : Nat) (event : Ev) (R : Nat)
    (w : W) (log : List Nat) :
    (sm.dispatch_region earlier (sm.mk (traced_table ts) cs) TEvent event R
        (w, log)).1.current_state_ =
      (sm.dispatch_region earlier (sm.mk ts cs) TEvent event R w).1.current_state_ ∧
    (sm.dispatch_region earlier (sm.mk (traced_table ts) cs) TEvent event R (w, log)).2.1 =
      (sm.dispatch_region earlier (sm.mk ts cs) TEvent event R w).2 ∧
    ∃ added,
      (sm.dispatch_region earlier (sm.mk (traced_table ts) cs) TEvent event R
          (w, log)).2.2 = log ++ added ∧
      (∀ k ∈ added, ∃ j t, ts[j]? = some t ∧ t.event = TEvent ∧
        t.src.hash = cs.getD R 0 ∧ (k = 2 * j ∨ k = 2 * j + 1)) ∧
      (∀ j, 2 * j + 1 ∈ added → ∀ k ∈ added, k ≤ 2 * j + 1) ∧
      added.Pairwise (fun a b => a < b) := by
  have hlen := transitions_of_traced_length TEvent ts 0
  rw [← traced_table] at hlen
  rw [dispatch_region_eq, dispatch_region_eq]
  simp only
  by_cases h1 : (transitions_of ts TEvent).length = 1
  · rw [entry_scan_single event _ _ _ (by rw [hlen]; exact h1),
      entry_scan_single event _ _ _ h1]
    simp only [← spec_scan_table_eq]
    obtain ⟨h2, h3, added, h4, h5, h6, h7⟩ :=
      traced_scan TEvent event (cs.getD R 0) ts 0 w log
    rw [← traced_table] at h2 h3 h4
    refine ⟨by rw [h2], h3, added, h4, ?_, h6, h7⟩
    intro k hk
    obtain ⟨j, t, _, hget, hrest⟩ := h5 k hk
    exact ⟨j, t, by simpa using hget, hrest⟩
  · rw [entry_scan_not_single event _ _ _ (by rw [hlen]; exact h1),
      entry_scan_not_single event _ _ _ h1]
    exact ⟨rfl, rfl, [], by simp, by simp, by simp, by simp⟩

/-- C17: `invoke` calls `fn(event)` and returns its result whenever that call
is well-formed, also when `fn()` is well-formed too; it calls `fn()` and
returns its result only when `fn(event)` is not well-formed (and `fn()` is
well-formed then). -/
theorem C17_invoke_tries_event_first {Ev W R : Type} (fn : invokable Ev W R) (event : Ev)
    (w : W) :
    (∀ f, fn.with_event = some f → invoke fn event w = f event w) ∧
    (∀ g, fn.with_event = none → fn.no_arg = some g → invoke fn event w = g w) ∧
    (fn.with_event = none → fn.no_arg ≠ none) ∧
    (∀ f g, invoke (invokable.overloaded f g : invokable Ev W R) event w = f event w) := by
  refine ⟨?_, ?_, ?_, ?_⟩
  · intro f h
    cases fn <;> simp [invokable.with_event] at h <;> subst h <;> rfl
  · intro g h1 h2
    cases fn <;> simp [invokable.with_event] at h1
    simp only [invokable.no_arg, Option.some.injEq] at h2
    subst h2
    rfl
  · intro h
    cases fn <;> simp [invokable.with_event] at h
    simp [invokable.no_arg]
  · intro f g
    rfl

/-- Witness of C17 on the nullary action `tables.record 1`, which does not
accept the event and is called without argument, and on a callable that
accepts both forms, which is called with the event. -/
theorem C17_invoke_tries_event_first_witness :
    invoke (tables.record 1) () [] = ((), [1]) ∧
    invoke (invokable.overloaded (fun (_ : Unit) (w : List Nat) => ((), w ++ [1]))
      (fun w => ((), w ++ [2]))) () [] = ((), [1]) :=
  ⟨(C17_invoke_tries_event_first (tables.record 1) () []).2.1
      (fun w => ((), w ++ [1])) rfl rfl,
   (C17_invoke_tries_event_first (tables.record 1) () []).2.2.2
      (fun (_ : Unit) (w : List Nat) => ((), w ++ [1])) (fun w => ((), w ++ [2]))⟩

/-- C18: after construction the current states of the regions are, as a
multiset, the hashes of the initial-marked sources of the table, also when
one of these hashes is 0; and at every point of the seeding loop the pointer
has advanced by at most the region count. -/
theorem C18_seeding_multiset_and_bounds {Ev W : Type} (ts : List (transition Ev W)) :
    ((sm.ctor ts).current_state_ : Multiset Nat) =
        ((initial_sources ts).map (fun s => s.hash) : Multiset Nat) ∧
    ∀ k, (((sm.states ts).take k).foldl sm.seed_body
        (List.replicate (num_of_regions ts) 0, 0)).2 ≤ num_of_regions ts := by
  refine ⟨Multiset.coe_eq_coe.2 (ctor_perm ts), ?_⟩
  intro k
  have hsub : (((sm.states ts).take k).filter (fun x => decide (x ≠ 0))).length ≤
      ((sm.states ts).filter (fun x => decide (x ≠ 0))).length :=
    ((List.take_sublist k (sm.states ts)).filter _).length_le
  have hle := states_nonzero_le ts
  have h := seed_foldl ((sm.states ts).take k) [] (num_of_regions ts) (by omega)
  simp only [List.nil_append, List.length_nil, Nat.zero_add] at h
  rw [h]
  simp only
  omega

/-- C19: in every machine state reached from construction by a sequence of
calls of `process_event`, the current state of every region is the hash of an
initial-marked source of the table or the hash of the destination of a
transition of the table that has a destination. -/
theorem C19_reachable_states {Ev W : Type} (earlier : List Nat) (ts : List (transition Ev W))
    (events : List (Nat × Ev)) (w : W) (s : Nat)
    (hs : s ∈ (sm.run earlier events (sm.ctor ts, w)).1.current_state_) :
    s ∈ (initial_sources ts).map (fun x => x.hash) ∨
      ∃ t ∈ ts, t.dst.size ≠ 0 ∧ t.dst.hash = s := by
  have h := (run_invariant earlier
    (fun s => s ∈ (initial_sources ts).map (fun x => x.hash) ∨
      ∃ t ∈ ts, t.dst.size ≠ 0 ∧ t.dst.hash = s)
    events (sm.ctor ts, w)
    (fun s hs => Or.inl ((ctor_perm ts).mem_iff.1 hs))
    (fun t ht hd => Or.inr ⟨t, ht, hd, rfl⟩)).1
  exact h s hs

/-- Witness of C19 on the table `tables.single` after one event of type 1: the
current state 424 is the hash of the destination `s2`. -/
theorem C19_reachable_states_witness :
    424 ∈ (sm.run [] [(1, ())] (sm.ctor tables.single, [])).1.current_state_ ∧
    (424 ∈ (initial_sources tables.single).map (fun x => x.hash) ∨
      ∃ t ∈ tables.single, t.dst.size ≠ 0 ∧ t.dst.hash = 424) :=
  ⟨by decide, C19_reachable_states [] tables.single [(1, ())] [] 424 (by decide)⟩

/-- C20: the hash of a name `c_0 ... c_{N-1}` is the XOR over `i` of `c_i`
shifted left by `N - i`, modulo `2 ^ 32`; hence two names that end with the
same 31 or more characters have the same hash. Characters are given by their
codes: the statement covers the ASCII names. -/
theorem C20_hash_is_xor_of_shifts (name p q s : List Nat) :
    (fixed_string.of_name name).hash = xor_of_shifts name % 2 ^ 32 ∧
    (31 ≤ s.length →
      (fixed_string.of_name (p ++ s)).hash = (fixed_string.of_name (q ++ s)).hash) := by
  constructor
  · rw [fixed_string.of_name_eq, fixed_string.xor_of_shifts_eq]
    simp only
    rw [fixed_string.foldl_hash_step name 0 (by norm_num)]
    simp
  · intro h31
    have key : ∀ r : List Nat, (fixed_string.of_name (r ++ s)).hash =
        xor_of_shifts_from s % 2 ^ 32 := by
      intro r
      rw [fixed_string.of_name_eq]
      simp only
      rw [List.foldl_append]
      have hlt : r.foldl fixed_string.hash_step 0 < 2 ^ 32 := by
        rw [fixed_string.foldl_hash_step r 0 (by norm_num)]
        exact Nat.mod_lt _ (by norm_num)
      rw [fixed_string.foldl_hash_step s _ hlt]
      exact fixed_string.shift_of_even_vanishes _ _ _ h31
        (fixed_string.foldl_hash_step_even r 0 rfl)
    rw [key p, key q]

/-- Witness of C20 on the names made of the character `a` or `b` followed by
31 times the character `a`. -/
theorem C20_hash_is_xor_of_shifts_witness :
    (fixed_string.of_name ([97] ++ List.replicate 31 97)).hash =
      (fixed_string.of_name ([98] ++ List.replicate 31 97)).hash :=
  (C20_hash_is_xor_of_shifts [] [97] [98] (List.replicate 31 97)).2 (by decide)

end sml
